import Mathlib

/-!
Shallow embedding of the context-intelligence core of the `distill`
repository (packages `pkg/session` and `pkg/memory`, SQLite backends),
together with proofs about the session budget-enforcement pipeline, the
memory store, the decay worker, and the text compressors.

Modelling conventions, used throughout:

* Go strings are byte sequences; they are modelled as `List Nat` of byte
  values.  All concrete inputs appearing in theorems are ASCII, so SQLite's
  character-counting `LENGTH` and Go's byte-counting `len` agree on them
  wherever the model equates the two (noted at each use).
* Go `float64` quantities (importance, thresholds, cosine distances,
  relevance scores, timestamps measured in hours) are modelled as exact
  rationals `ℚ`.  Every property proved here is an order-theoretic or
  affine statement that is insensitive to this idealisation.
* The SQLite tables are modelled as in-memory lists kept in the order the
  queries of the code read them (`seq ASC` for session entries, rowid
  i.e. insertion order for memories).  Primary-key uniqueness and the
  strict monotonicity of `seq` are carried as explicit invariants.
* `pkg/math.CosineDistance` and the extractive summary compressor of
  `pkg/compress` are outside the sources under verification; they are
  abstracted as parameters (`Ext.dist`, `Ext.summarize`).  No theorem
  depends on their concrete behaviour: all statements are proved for
  every instantiation, and hypotheses (e.g. "the distance of an embedding
  to itself is below the threshold") make the needed facts explicit.
* `sort.Slice` of the Go standard library (used by `sortCandidates`) is
  modelled by a faithful translation of its pdqsort implementation
  (`sort/zsortfunc.go`, Go 1.19 and later), limit `bits.Len(length)`,
  over an array with bounds-checked swaps.  Loops are expressed with
  explicit fuel large enough to be exact on every input considered.
-/

set_option maxHeartbeats 4000000
set_option maxRecDepth 4096

namespace Distill

/-- Byte strings: a Go string is a byte sequence, modelled as a list of
byte values. -/
abbrev Bytes := List Nat

/-- Translation of `estimateTokens` (identical in `pkg/session/sqlite.go`
and `pkg/memory/helpers.go`): `(len(text) + 3) / 4`. -/
def estimateTokens (text : Bytes) : Nat := (text.length + 3) / 4

/-- Space, TAB, LF, VT, FF, CR: the ASCII white-space bytes recognised by
the fast path of Go's `strings.TrimSpace` and by `strings.Fields`. -/
def asciiSpace (b : Nat) : Bool := b = 32 || b = 9 || b = 10 || b = 11 || b = 12 || b = 13

/-- Translation of `strings.TrimSpace`, restricted to its ASCII behaviour
(all inputs considered in this development are ASCII bytes). -/
def trimSpace (s : Bytes) : Bytes :=
  ((s.dropWhile asciiSpace).reverse.dropWhile asciiSpace).reverse

/-- Translation of `strings.Fields`, restricted to ASCII white space. -/
def fieldsAux : Bytes → Bytes → List Bytes
  | acc, [] => if acc = [] then [] else [acc.reverse]
  | acc, b :: rest =>
    if asciiSpace b then
      if acc = [] then fieldsAux [] rest else acc.reverse :: fieldsAux [] rest
    else fieldsAux (b :: acc) rest

/-- Word splitter used by `extractKeywords` (`strings.Fields`). -/
def goFields (s : Bytes) : List Bytes := fieldsAux [] s

/-- ASCII lower-casing of one byte (`strings.ToLower` on ASCII input). -/
def toLowerByte (b : Nat) : Nat := if 65 ≤ b ∧ b ≤ 90 then b + 32 else b

/-- Translation of `strings.Trim`: drop bytes of the cutset from both ends. -/
def goTrim (cutset : Bytes) (s : Bytes) : Bytes :=
  ((s.dropWhile (cutset.contains ·)).reverse.dropWhile (cutset.contains ·)).reverse

/-- Cutset `".,;:!?\"'()[]{}"` passed to `strings.Trim` by `extractKeywords`. -/
def punctCutset : Bytes := [46, 44, 59, 58, 33, 63, 34, 39, 40, 41, 91, 93, 123, 125]

/-- Stop-word set shared verbatim by `pkg/session/sqlite.go` and
`pkg/memory/helpers.go` (byte encodings of the 32 words). -/
def stopWords : List Bytes := [
  [116, 104, 97, 116],
  [116, 104, 105, 115],
  [119, 105, 116, 104],
  [102, 114, 111, 109],
  [104, 97, 118, 101],
  [98, 101, 101, 110],
  [119, 101, 114, 101],
  [116, 104, 101, 121],
  [116, 104, 101, 105, 114],
  [119, 104, 105, 99, 104],
  [119, 111, 117, 108, 100],
  [116, 104, 101, 114, 101],
  [97, 98, 111, 117, 116],
  [99, 111, 117, 108, 100],
  [111, 116, 104, 101, 114],
  [105, 110, 116, 111],
  [109, 111, 114, 101],
  [115, 111, 109, 101],
  [116, 104, 97, 110],
  [116, 104, 101, 109],
  [118, 101, 114, 121],
  [119, 104, 101, 110],
  [119, 104, 97, 116],
  [121, 111, 117, 114],
  [97, 108, 115, 111],
  [101, 97, 99, 104],
  [100, 111, 101, 115],
  [119, 105, 108, 108],
  [106, 117, 115, 116],
  [115, 104, 111, 117, 108, 100],
  [98, 101, 99, 97, 117, 115, 101],
  [116, 104, 101, 115, 101]]

/-- Keyword-collection loop of `extractKeywords`: lower-cased trimmed words,
dropping short words, stop words and already-seen words, preserving
first-seen order. -/
def keywordLoop : List Bytes → List Bytes → List Bytes
  | _, [] => []
  | seen, w :: ws =>
    let lower := (goTrim punctCutset w).map toLowerByte
    if lower = [] ∨ lower.length < 4 ∨ stopWords.contains lower ∨ seen.contains lower then
      keywordLoop seen ws
    else lower :: keywordLoop (lower :: seen) ws

/-- Separator `", "` used to join keywords. -/
def commaSpace : Bytes := [44, 32]

/-- Translation of `strings.Join(keywords, ", ")`. -/
def joinBytes (sep : Bytes) : List Bytes → Bytes
  | [] => []
  | [w] => w
  | w :: ws => w ++ sep ++ joinBytes sep ws

/-- Translation of `extractKeywords`; the session store caps the list at 15
keywords, the memory store at 20, otherwise the two copies are identical. -/
def extractKeywordsCap (cap : Nat) (text : Bytes) : Bytes :=
  joinBytes commaSpace ((keywordLoop [] (goFields text)).take cap)

/-- Terminator test of the LevelSentence branch: `'.'`, `'!'` or `'?'`. -/
def isTerm (b : Nat) : Bool := b = 46 || b = 33 || b = 63

/-- Byte index of the first sentence terminator.  The Go loop ranges over
runes and returns the terminator rune's byte offset; the terminators are
ASCII bytes that can never be consumed as part of a longer decoded unit,
so the first terminator byte's index coincides with it. -/
def findTerm : Bytes → Option Nat
  | [] => none
  | b :: rest => if isTerm b then some 0 else (findTerm rest).map (· + 1)

/-- Countdown loop `for cut > 0 && text[cut] != ' ' { cut-- }` of the
LevelSentence branch, started at 50.  Stops at the largest index `c ≤ 50`
with `text[c] = ' '` (index 0 is never examined), else at 0. -/
def cutLoop (text : Bytes) : Nat → Nat
  | 0 => 0
  | c + 1 => if text.getD (c + 1) 0 = 32 then c + 1 else cutLoop text c

/-- Bytes `"..."`. -/
def ellipsis : Bytes := [46, 46, 46]

/-- Translation of the `LevelSentence` branch of `compressToLevel`
(`pkg/session/sqlite.go`). -/
def sentenceLevel (text : Bytes) : Bytes :=
  match findTerm text with
  | some i => text.take (i + 1)
  | none =>
    if 50 < text.length then
      let cut := cutLoop text 50
      let cut := if cut = 0 then 50 else cut
      trimSpace (text.take cut) ++ ellipsis
    else text

/-- External collaborators of the verified core: `pkg/math.CosineDistance`
(on decoded embeddings) and the extractive summary compressor of
`pkg/compress` (the text of `Compress`'s single result chunk, empty when
the compressor produced none).  Both packages are outside the sources
under verification; every theorem below holds for every instantiation. -/
structure Ext where
  dist : List ℚ → List ℚ → ℚ
  summarize : Bytes → Bytes

/-- LevelSummary branch of `compressToLevel`: the compressor's output when
it is non-empty, otherwise the input text unchanged. -/
def summaryOf (ext : Ext) (text : Bytes) : Bytes :=
  let s := ext.summarize text
  if s = [] then text else s

/-- Translation of `compressToLevel` (levels: 0 Full, 1 Summary,
2 Sentence, 3 Keywords; any other level is the identity). -/
def compressToLevel (ext : Ext) (text : Bytes) : Nat → Bytes
  | 1 => summaryOf ext text
  | 2 => sentenceLevel text
  | 3 => extractKeywordsCap 15 text
  | _ => text

/-!
Translation of Go's `sort.Slice`.  Since Go 1.19 it runs pdqsort
(`sort/zsortfunc.go`) with `limit = bits.Len(uint(length))`; the sort is
deliberately not stable.  All array mutations go through the
bounds-checked `swapA`, so every intermediate array is a permutation of
the input (proved below).  Loops carry explicit fuel; every fuel value
passed is strictly larger than the number of iterations the Go loop can
make, so the translation computes the Go result exactly.
-/

section GoSort

variable {α : Type} [Inhabited α]

/-- Bounds-checked element swap; all Go `data.Swap` calls are in bounds. -/
def swapA (xs : List α) (i j : Nat) : List α :=
  if i < xs.length ∧ j < xs.length then
    (xs.set i (xs.getD j default)).set j (xs.getD i default)
  else xs

variable (lt : α → α → Bool)

/-- Inner shift loop of `insertionSort_func`:
`for j := i; j > a && data.Less(j, j-1); j-- { data.Swap(j, j-1) }`. -/
def insInner (a : Nat) : Nat → List α → List α
  | 0, xs => xs
  | j + 1, xs =>
    if a < j + 1 then
      if lt (xs.getD (j + 1) default) (xs.getD j default) then insInner a j (swapA xs (j + 1) j) else xs
    else xs

/-- Outer loop of `insertionSort_func`: `for i := a + 1; i < b; i++`. -/
def insOuter (a b : Nat) : Nat → List α → Nat → List α
  | 0, xs, _ => xs
  | fuel + 1, xs, i => if i < b then insOuter a b fuel (insInner lt a i xs) (i + 1) else xs

/-- Translation of `insertionSort_func(data, a, b)`. -/
def insertionSortA (xs : List α) (a b : Nat) : List α := insOuter lt a b (b + 1) xs (a + 1)

/-- Translation of `siftDown_func(data, root, hi, first)` (fuelled). -/
def siftDownA (first : Nat) : Nat → List α → Nat → Nat → List α
  | 0, xs, _, _ => xs
  | fuel + 1, xs, root, hi =>
    let child := 2 * root + 1
    if hi ≤ child then xs
    else
      let child :=
        if child + 1 < hi ∧ lt (xs.getD (first + child) default) (xs.getD (first + child + 1) default) then
          child + 1
        else child
      if lt (xs.getD (first + root) default) (xs.getD (first + child) default) then
        siftDownA first fuel (swapA xs (first + root) (first + child)) child hi
      else xs

/-- Heap construction loop of `heapSort_func`:
`for i := (hi-1)/2; i >= 0; i--`, counting down to 0 inclusive. -/
def heapInitLoop (first hi : Nat) : Nat → List α → List α
  | 0, xs => siftDownA lt first hi xs 0 hi
  | i + 1, xs => heapInitLoop first hi i (siftDownA lt first hi xs (i + 1) hi)

/-- Pop loop of `heapSort_func`: `for i := hi - 1; i >= 0; i--`
with `Swap(first, first+i); siftDown(lo, i, first)`. -/
def heapDownLoop (first : Nat) : Nat → List α → List α
  | 0, xs => siftDownA lt first 1 (swapA xs first first) 0 0
  | i + 1, xs =>
    heapDownLoop first i (siftDownA lt first (i + 2) (swapA xs first (first + (i + 1))) 0 (i + 1))

/-- Translation of `heapSort_func(data, a, b)`. -/
def heapSortA (xs : List α) (a b : Nat) : List α :=
  let hi := b - a
  if hi = 0 then xs
  else heapDownLoop lt a (hi - 1) (heapInitLoop lt a hi ((hi - 1) / 2) xs)

/-- Translation of `reverseRange_func` (fuelled). -/
def reverseRangeA : Nat → List α → Nat → Nat → List α
  | 0, xs, _, _ => xs
  | fuel + 1, xs, i, j => if i < j then reverseRangeA fuel (swapA xs i j) (i + 1) (j - 1) else xs

/-- Halving recursion computing the bit width, with fuel (the fuel `n`
itself always suffices). -/
def bitsLenAux : Nat → Nat → Nat
  | 0, _ => 0
  | fuel + 1, n => if n = 0 then 0 else bitsLenAux fuel (n / 2) + 1

/-- Bit width `bits.Len` of a natural number. -/
def bitsLen (n : Nat) : Nat := bitsLenAux n n

/-- One step of the xorshift64 generator used by `breakPatterns_func`,
on 64-bit unsigned arithmetic. -/
def xorshiftNext (r : Nat) : Nat :=
  let m := 18446744073709551616
  let r := (Nat.xor r ((r <<< 13) % m)) % m
  let r := (Nat.xor r (r >>> 7)) % m
  (Nat.xor r ((r <<< 17) % m)) % m

/-- Swap target of one `breakPatterns_func` iteration: the masked random
word, reduced once when it overshoots the length. -/
def breakOther (length modulus r : Nat) : Nat :=
  let other := r &&& (modulus - 1)
  if length ≤ other then other - length else other

/-- Translation of `breakPatterns_func(data, a, b)`: three pseudo-random
swaps around the midpoint, seeded deterministically with the length
(the loop `for i := 0; i < 3; i++` is unrolled). -/
def breakPatternsA (xs : List α) (a b : Nat) : List α :=
  let length := b - a
  if 8 ≤ length then
    let modulus := 1 <<< bitsLen length
    let idx := a + (length / 4) * 2 - 1
    let r1 := xorshiftNext length
    let xs := swapA xs (idx - 1 + 0) (a + breakOther length modulus r1)
    let r2 := xorshiftNext r1
    let xs := swapA xs (idx - 1 + 1) (a + breakOther length modulus r2)
    let r3 := xorshiftNext r2
    swapA xs (idx - 1 + 2) (a + breakOther length modulus r3)
  else xs

/-- Sortedness hints returned by `choosePivot_func`. -/
inductive Hint where
  | unknown
  | increasing
  | decreasing
deriving DecidableEq, Repr

/-- Translation of `order2_func`: order two indices by the pointed-to
elements, counting performed swaps. -/
def order2 (xs : List α) (a b swaps : Nat) : Nat × Nat × Nat :=
  if lt (xs.getD b default) (xs.getD a default) then (b, a, swaps + 1) else (a, b, swaps)

/-- Translation of `median_func`: median index of three, counting swaps. -/
def medianOf (xs : List α) (a b c swaps : Nat) : Nat × Nat :=
  let p1 := order2 lt xs a b swaps
  let p2 := order2 lt xs p1.2.1 c p1.2.2
  let p3 := order2 lt xs p1.1 p2.1 p2.2.2
  (p3.2.1, p3.2.2)

/-- Translation of `medianAdjacent_func`: median of `{a-1, a, a+1}`. -/
def medianAdjacent (xs : List α) (a swaps : Nat) : Nat × Nat :=
  medianOf lt xs (a - 1) a (a + 1) swaps

/-- Translation of `choosePivot_func(data, a, b)`. -/
def choosePivotA (xs : List α) (a b : Nat) : Nat × Hint :=
  let l := b - a
  let i := a + l / 4 * 1
  let j := a + l / 4 * 2
  let k := a + l / 4 * 3
  if 8 ≤ l then
    let q :=
      if 50 ≤ l then
        let p1 := medianAdjacent lt xs i 0
        let p2 := medianAdjacent lt xs j p1.2
        let p3 := medianAdjacent lt xs k p2.2
        (p1.1, p2.1, p3.1, p3.2)
      else (i, j, k, 0)
    let p := medianOf lt xs q.1 q.2.1 q.2.2.1 q.2.2.2
    (p.1, if p.2 = 0 then Hint.increasing else if p.2 = 12 then Hint.decreasing else Hint.unknown)
  else (j, Hint.increasing)

/-- Left scan of `partition_func`: `for i <= j && data.Less(i, a) { i++ }`. -/
def scanI (xs : List α) (pa : Nat) (j : Nat) : Nat → Nat → Nat
  | 0, i => i
  | fuel + 1, i =>
    if i ≤ j ∧ lt (xs.getD i default) (xs.getD pa default) then scanI xs pa j fuel (i + 1) else i

/-- Right scan of `partition_func`: `for i <= j && !data.Less(j, a) { j-- }`. -/
def scanJ (xs : List α) (pa i : Nat) : Nat → Nat → Nat
  | 0, j => j
  | fuel + 1, j =>
    if i ≤ j ∧ ¬ lt (xs.getD j default) (xs.getD pa default) then scanJ xs pa i fuel (j - 1) else j

/-- Main cyclic loop of `partition_func`; returns the array and final `j`. -/
def partMain (pa : Nat) : Nat → List α → Nat → Nat → List α × Nat
  | 0, xs, _, j => (xs, j)
  | fuel + 1, xs, i, j =>
    let i := scanI lt xs pa j (j + 2) i
    let j := scanJ lt xs pa i (j + 2) j
    if j < i then (xs, j)
    else partMain pa fuel (swapA xs i j) (i + 1) (j - 1)

/-- Translation of `partition_func(data, a, b, pivot)`; returns the array,
the new pivot position, and `alreadyPartitioned`. -/
def partitionA (xs : List α) (a b pivot : Nat) : List α × Nat × Bool :=
  let xs := swapA xs a pivot
  let i := scanI lt xs a (b - 1) b (a + 1)
  let j := scanJ lt xs a i b (b - 1)
  if j < i then (swapA xs j a, j, true)
  else
    let xs := swapA xs i j
    let p := partMain lt a b xs (i + 1) (j - 1)
    (swapA p.1 p.2 a, p.2, false)

/-- Left scan of `partitionEqual_func`: `for i <= j && !data.Less(a, i)`. -/
def scanEqI (xs : List α) (pa : Nat) (j : Nat) : Nat → Nat → Nat
  | 0, i => i
  | fuel + 1, i =>
    if i ≤ j ∧ ¬ lt (xs.getD pa default) (xs.getD i default) then scanEqI xs pa j fuel (i + 1) else i

/-- Right scan of `partitionEqual_func`: `for i <= j && data.Less(a, j)`. -/
def scanEqJ (xs : List α) (pa i : Nat) : Nat → Nat → Nat
  | 0, j => j
  | fuel + 1, j =>
    if i ≤ j ∧ lt (xs.getD pa default) (xs.getD j default) then scanEqJ xs pa i fuel (j - 1) else j

/-- Main loop of `partitionEqual_func`; returns the array and final `i`. -/
def partEqMain (pa : Nat) : Nat → List α → Nat → Nat → List α × Nat
  | 0, xs, i, _ => (xs, i)
  | fuel + 1, xs, i, j =>
    let i := scanEqI lt xs pa j (j + 2) i
    let j := scanEqJ lt xs pa i (j + 2) j
    if j < i then (xs, i)
    else partEqMain pa fuel (swapA xs i j) (i + 1) (j - 1)

/-- Translation of `partitionEqual_func(data, a, b, pivot)`. -/
def partitionEqualA (xs : List α) (a b pivot : Nat) : List α × Nat :=
  partEqMain lt a b (swapA xs a pivot) (a + 1) (b - 1)

/-- Skip loop of the opportunistic insertion sort:
`for i < b && !data.Less(i, i-1) { i++ }`. -/
def advanceI (xs : List α) (b : Nat) : Nat → Nat → Nat
  | 0, i => i
  | fuel + 1, i =>
    if i < b ∧ ¬ lt (xs.getD i default) (xs.getD (i - 1) default) then advanceI xs b fuel (i + 1) else i

/-- Left shift loop: `for j := i - 1; j >= 1; j--` with early break. -/
def shiftLeftLoop : Nat → List α → Nat → List α
  | 0, xs, _ => xs
  | fuel + 1, xs, j =>
    if 1 ≤ j ∧ lt (xs.getD j default) (xs.getD (j - 1) default) then
      shiftLeftLoop fuel (swapA xs j (j - 1)) (j - 1)
    else xs

/-- Right shift loop: `for j := i + 1; j < b; j++` with early break. -/
def shiftRightLoop (b : Nat) : Nat → List α → Nat → List α
  | 0, xs, _ => xs
  | fuel + 1, xs, j =>
    if j < b ∧ lt (xs.getD j default) (xs.getD (j - 1) default) then
      shiftRightLoop b fuel (swapA xs j (j - 1)) (j + 1)
    else xs

/-- Step loop (at most `maxSteps = 5` fixups) of the opportunistic
insertion sort used on likely-sorted ranges; returns whether the range
was fully sorted. -/
def maybeSortLoop (a b : Nat) : Nat → List α → Nat → List α × Bool
  | 0, xs, _ => (xs, false)
  | steps + 1, xs, i =>
    let i := advanceI lt xs b (b + 1) i
    if i = b then (xs, true)
    else if b - a < 50 then (xs, false)
    else
      let xs := swapA xs i (i - 1)
      let xs := if 2 ≤ i - a then shiftLeftLoop lt (i + 1) xs (i - 1) else xs
      let xs := if 2 ≤ b - i then shiftRightLoop lt b (b + 1) xs (i + 1) else xs
      maybeSortLoop a b steps xs i

/-- Entry point of the opportunistic insertion sort (Go's
`partialInsertionSort_func`). -/
def maybeSortA (xs : List α) (a b : Nat) : List α × Bool :=
  maybeSortLoop lt a b 5 xs (a + 1)

/-- Pre-partition phase of one `pdqsort_func` loop iteration: optional
`breakPatterns` with limit decrement, pivot choice, optional range
reversal on a decreasing hint, and the opportunistic insertion sort on a
likely-sorted range.  Returns the array, the new limit, the pivot, and
whether the iteration may return early. -/
def pdqPrep (xs : List α) (a b limit : Nat) (wasBalanced wasPartitioned : Bool) :
    List α × Nat × Nat × Bool :=
  let q := if ¬ wasBalanced then (breakPatternsA xs a b, limit - 1) else (xs, limit)
  let pv := choosePivotA lt q.1 a b
  let r :=
    if pv.2 = Hint.decreasing then
      (reverseRangeA (b + 1) q.1 a (b - 1), (b - 1) - (pv.1 - a), Hint.increasing)
    else (q.1, pv.1, pv.2)
  let s :=
    if wasBalanced ∧ wasPartitioned ∧ r.2.2 = Hint.increasing then maybeSortA lt r.1 a b
    else (r.1, false)
  (s.1, q.2, r.2.1, s.2)

/-- Translation of `pdqsort_func(data, a, b, limit)`.  The trailing
booleans carry `wasBalanced` and `wasPartitioned`; the Go `for` loop is
the tail-recursive continuation, a fresh recursive call resets both
flags to `true` exactly as the Go recursion does. -/
def pdqsortA : Nat → List α → Nat → Nat → Nat → Bool → Bool → List α
  | 0, xs, _, _, _, _, _ => xs
  | fuel + 1, xs, a, b, limit, wasBalanced, wasPartitioned =>
    let length := b - a
    if length ≤ 12 then insertionSortA lt xs a b
    else if limit = 0 then heapSortA lt xs a b
    else
      let t := pdqPrep lt xs a b limit wasBalanced wasPartitioned
      let xs := t.1
      let limit := t.2.1
      let pivot := t.2.2.1
      if t.2.2.2 then xs
      else
        if 0 < a ∧ ¬ lt (xs.getD (a - 1) default) (xs.getD pivot default) then
          let p := partitionEqualA lt xs a b pivot
          pdqsortA fuel p.1 p.2 b limit wasBalanced wasPartitioned
        else
          let p := partitionA lt xs a b pivot
          let mid := p.2.1
          let balanced := decide (length / 8 ≤ min (mid - a) (b - mid))
          if mid - a < b - mid then
            pdqsortA fuel (pdqsortA fuel p.1 a mid limit true true) (mid + 1) b limit
              balanced p.2.2
          else
            pdqsortA fuel (pdqsortA fuel p.1 (mid + 1) b limit true true) a mid limit
              balanced p.2.2

/-- Translation of `sort.Slice(x, less)`: pdqsort over the whole slice
with `limit = bits.Len(length)`.  The fuel exceeds the recursion depth
(every recursive call shrinks the interval), so the result is exact. -/
def goSortSlice (xs : List α) : List α :=
  pdqsortA lt (xs.length + bitsLen xs.length + 4) xs 0 xs.length (bitsLen xs.length) true true

end GoSort

/-!
Permutation lemmas: every function of the sort translation mutates the
array only through `swapA`, hence returns a permutation of its input.
-/

section GoSortPerm

open List

variable {α : Type} [Inhabited α]

/-- Moving the element at index `j` to the front while writing `x` into
its slot permutes a cons of `x`. -/
theorem cons_set_perm (x : α) :
    ∀ (xs : List α) (j : Nat) (hj : j < xs.length),
      (xs.get ⟨j, hj⟩ :: xs.set j x) ~ (x :: xs)
  | y :: ys, 0, _ => List.Perm.swap x y ys
  | y :: ys, j + 1, hj => by
    have hj' : j < ys.length := Nat.lt_of_succ_lt_succ hj
    have step1 : (ys.get ⟨j, hj'⟩ :: y :: ys.set j x) ~ (y :: ys.get ⟨j, hj'⟩ :: ys.set j x) :=
      List.Perm.swap y (ys.get ⟨j, hj'⟩) (ys.set j x)
    have step2 : (y :: ys.get ⟨j, hj'⟩ :: ys.set j x) ~ (y :: x :: ys) :=
      (cons_set_perm x ys j hj').cons y
    have step3 : (y :: x :: ys) ~ (x :: y :: ys) := List.Perm.swap x y ys
    simpa using (step1.trans step2).trans step3

/-- The double `set` that realises an array swap permutes the list. -/
theorem set_swap_perm :
    ∀ (xs : List α) (i j : Nat) (hi : i < xs.length) (hj : j < xs.length),
      ((xs.set i (xs.get ⟨j, hj⟩)).set j (xs.get ⟨i, hi⟩)) ~ xs
  | [], i, j, hi, _ => absurd hi (by simp)
  | y :: ys, 0, 0, hi, hj => by simp
  | y :: ys, 0, j + 1, hi, hj => by
    simpa using cons_set_perm y ys j (Nat.lt_of_succ_lt_succ hj)
  | y :: ys, i + 1, 0, hi, hj => by
    simpa using cons_set_perm y ys i (Nat.lt_of_succ_lt_succ hi)
  | y :: ys, i + 1, j + 1, hi, hj => by
    simpa using
      (set_swap_perm ys i j (Nat.lt_of_succ_lt_succ hi) (Nat.lt_of_succ_lt_succ hj)).cons y

/-- `swapA` permutes the underlying list. -/
theorem swapA_perm (xs : List α) (i j : Nat) : (swapA xs i j) ~ xs := by
  unfold swapA
  split
  next h =>
    have hj : xs.getD j default = xs.get ⟨j, h.2⟩ := by
      simp [List.getD_eq_getElem, h.2, List.get_eq_getElem]
    have hi : xs.getD i default = xs.get ⟨i, h.1⟩ := by
      simp [List.getD_eq_getElem, h.1, List.get_eq_getElem]
    rw [hi, hj]
    exact set_swap_perm xs i j h.1 h.2
  next => exact List.Perm.refl _

variable (lt : α → α → Bool)

theorem insInner_perm (a : Nat) :
    ∀ (j : Nat) (xs : List α), (insInner lt a j xs) ~ xs
  | 0, xs => List.Perm.refl _
  | j + 1, xs => by
    simp only [insInner]
    split
    · split
      · exact (insInner_perm a j _).trans (swapA_perm xs (j + 1) j)
      · exact List.Perm.refl _
    · exact List.Perm.refl _

theorem insOuter_perm (a b : Nat) :
    ∀ (fuel : Nat) (xs : List α) (i : Nat), (insOuter lt a b fuel xs i) ~ xs
  | 0, _, _ => List.Perm.refl _
  | fuel + 1, xs, i => by
    simp only [insOuter]
    split
    · exact (insOuter_perm a b fuel _ _).trans (insInner_perm lt a i xs)
    · exact List.Perm.refl _

theorem insertionSortA_perm (xs : List α) (a b : Nat) :
    (insertionSortA lt xs a b) ~ xs :=
  insOuter_perm lt a b (b + 1) xs (a + 1)

theorem siftDownA_perm (first : Nat) :
    ∀ (fuel : Nat) (xs : List α) (root hi : Nat),
      (siftDownA lt first fuel xs root hi) ~ xs
  | 0, _, _, _ => List.Perm.refl _
  | fuel + 1, xs, root, hi => by
    simp only [siftDownA]
    split
    · exact List.Perm.refl _
    · split <;> split
      · exact (siftDownA_perm first fuel _ _ _).trans (swapA_perm xs _ _)
      · exact List.Perm.refl _
      · exact (siftDownA_perm first fuel _ _ _).trans (swapA_perm xs _ _)
      · exact List.Perm.refl _

theorem heapInitLoop_perm (first hi : Nat) :
    ∀ (i : Nat) (xs : List α), (heapInitLoop lt first hi i xs) ~ xs
  | 0, xs => siftDownA_perm lt first hi xs 0 hi
  | i + 1, xs =>
    (heapInitLoop_perm first hi i _).trans (siftDownA_perm lt first hi xs (i + 1) hi)

theorem heapDownLoop_perm (first : Nat) :
    ∀ (i : Nat) (xs : List α), (heapDownLoop lt first i xs) ~ xs
  | 0, xs => (siftDownA_perm lt first 1 _ 0 0).trans (swapA_perm xs first first)
  | i + 1, xs =>
    (heapDownLoop_perm first i _).trans
      ((siftDownA_perm lt first (i + 2) _ 0 (i + 1)).trans
        (swapA_perm xs first (first + (i + 1))))

theorem heapSortA_perm (xs : List α) (a b : Nat) :
    (heapSortA lt xs a b) ~ xs := by
  simp only [heapSortA]
  split
  · exact List.Perm.refl _
  · exact (heapDownLoop_perm lt a _ _).trans (heapInitLoop_perm lt a (b - a) _ xs)

theorem reverseRangeA_perm :
    ∀ (fuel : Nat) (xs : List α) (i j : Nat), (reverseRangeA fuel xs i j) ~ xs
  | 0, _, _, _ => List.Perm.refl _
  | fuel + 1, xs, i, j => by
    simp only [reverseRangeA]
    split
    · exact (reverseRangeA_perm fuel _ _ _).trans (swapA_perm xs i j)
    · exact List.Perm.refl _

theorem breakPatternsA_perm (xs : List α) (a b : Nat) :
    (breakPatternsA xs a b) ~ xs := by
  simp only [breakPatternsA]
  split
  · exact (swapA_perm _ _ _).trans ((swapA_perm _ _ _).trans (swapA_perm _ _ _))
  · exact List.Perm.refl _

theorem partMain_perm (pa : Nat) :
    ∀ (fuel : Nat) (xs : List α) (i j : Nat),
      ((partMain lt pa fuel xs i j).1) ~ xs
  | 0, _, _, _ => List.Perm.refl _
  | fuel + 1, xs, i, j => by
    simp only [partMain]
    split
    · exact List.Perm.refl _
    · exact (partMain_perm pa fuel _ _ _).trans (swapA_perm xs _ _)

theorem partitionA_perm (xs : List α) (a b pivot : Nat) :
    ((partitionA lt xs a b pivot).1) ~ xs := by
  simp only [partitionA]
  split
  · exact (swapA_perm _ _ _).trans (swapA_perm _ _ _)
  · exact (swapA_perm _ _ _).trans
      ((partMain_perm lt a _ _ _ _).trans
        ((swapA_perm _ _ _).trans (swapA_perm _ _ _)))

theorem partEqMain_perm (pa : Nat) :
    ∀ (fuel : Nat) (xs : List α) (i j : Nat),
      ((partEqMain lt pa fuel xs i j).1) ~ xs
  | 0, _, _, _ => List.Perm.refl _
  | fuel + 1, xs, i, j => by
    simp only [partEqMain]
    split
    · exact List.Perm.refl _
    · exact (partEqMain_perm pa fuel _ _ _).trans (swapA_perm xs _ _)

theorem partitionEqualA_perm (xs : List α) (a b pivot : Nat) :
    ((partitionEqualA lt xs a b pivot).1) ~ xs :=
  (partEqMain_perm lt a _ _ _ _).trans (swapA_perm xs a pivot)

theorem shiftLeftLoop_perm :
    ∀ (fuel : Nat) (xs : List α) (j : Nat), (shiftLeftLoop lt fuel xs j) ~ xs
  | 0, _, _ => List.Perm.refl _
  | fuel + 1, xs, j => by
    simp only [shiftLeftLoop]
    split
    · exact (shiftLeftLoop_perm fuel _ _).trans (swapA_perm xs _ _)
    · exact List.Perm.refl _

theorem shiftRightLoop_perm (b : Nat) :
    ∀ (fuel : Nat) (xs : List α) (j : Nat), (shiftRightLoop lt b fuel xs j) ~ xs
  | 0, _, _ => List.Perm.refl _
  | fuel + 1, xs, j => by
    simp only [shiftRightLoop]
    split
    · exact (shiftRightLoop_perm b fuel _ _).trans (swapA_perm xs _ _)
    · exact List.Perm.refl _

theorem maybeSortLoop_perm (a b : Nat) :
    ∀ (steps : Nat) (xs : List α) (i : Nat),
      ((maybeSortLoop lt a b steps xs i).1) ~ xs
  | 0, _, _ => List.Perm.refl _
  | steps + 1, xs, i => by
    simp only [maybeSortLoop]
    split
    · exact List.Perm.refl _
    · split
      · exact List.Perm.refl _
      · refine (maybeSortLoop_perm a b steps _ _).trans ?_
        refine List.Perm.trans ?_
          (swapA_perm xs (advanceI lt xs b (b + 1) i) (advanceI lt xs b (b + 1) i - 1))
        split
        · refine (shiftRightLoop_perm lt b _ _ _).trans ?_
          split
          · exact shiftLeftLoop_perm lt _ _ _
          · exact List.Perm.refl _
        · split
          · exact shiftLeftLoop_perm lt _ _ _
          · exact List.Perm.refl _

theorem maybeSortA_perm (xs : List α) (a b : Nat) :
    ((maybeSortA lt xs a b).1) ~ xs :=
  maybeSortLoop_perm lt a b 5 xs (a + 1)

theorem pdqPrep_perm (xs : List α) (a b limit : Nat) (wb wp : Bool) :
    ((pdqPrep lt xs a b limit wb wp).1) ~ xs := by
  simp only [pdqPrep]
  have hq : ((if ¬ wb then (breakPatternsA xs a b, limit - 1) else (xs, limit)).1)
      ~ xs := by
    split
    · exact breakPatternsA_perm xs a b
    · exact List.Perm.refl _
  generalize hqq : (if ¬ wb then (breakPatternsA xs a b, limit - 1) else (xs, limit)) = q at hq
  generalize (choosePivotA lt q.1 a b) = pv
  have hr : ((if pv.2 = Hint.decreasing then
      (reverseRangeA (b + 1) q.1 a (b - 1), (b - 1) - (pv.1 - a), Hint.increasing)
    else (q.1, pv.1, pv.2)).1) ~ q.1 := by
    split
    · exact reverseRangeA_perm (b + 1) q.1 a (b - 1)
    · exact List.Perm.refl _
  generalize hrr : (if pv.2 = Hint.decreasing then
      (reverseRangeA (b + 1) q.1 a (b - 1), (b - 1) - (pv.1 - a), Hint.increasing)
    else (q.1, pv.1, pv.2)) = r at hr
  have hs : ((if wb ∧ wp ∧ r.2.2 = Hint.increasing then maybeSortA lt r.1 a b
      else (r.1, false)).1) ~ r.1 := by
    split
    · exact maybeSortA_perm lt r.1 a b
    · exact List.Perm.refl _
  exact (hs.trans hr).trans hq

theorem pdqsortA_perm :
    ∀ (fuel : Nat) (xs : List α) (a b limit : Nat) (wb wp : Bool),
      (pdqsortA lt fuel xs a b limit wb wp) ~ xs
  | 0, _, _, _, _, _, _ => List.Perm.refl _
  | fuel + 1, xs, a, b, limit, wb, wp => by
    simp only [pdqsortA]
    have base := pdqPrep_perm lt xs a b limit wb wp
    split
    · exact insertionSortA_perm lt xs a b
    · split
      · exact heapSortA_perm lt xs a b
      · split
        · exact base
        · split
          · exact (pdqsortA_perm fuel _ _ _ _ _ _).trans
              ((partitionEqualA_perm lt _ a b _).trans base)
          · split
            · exact (pdqsortA_perm fuel _ _ _ _ _ _).trans
                ((pdqsortA_perm fuel _ _ _ _ _ _).trans
                  ((partitionA_perm lt _ a b _).trans base))
            · exact (pdqsortA_perm fuel _ _ _ _ _ _).trans
                ((pdqsortA_perm fuel _ _ _ _ _ _).trans
                  ((partitionA_perm lt _ a b _).trans base))

theorem goSortSlice_perm (xs : List α) : (goSortSlice lt xs) ~ xs :=
  pdqsortA_perm lt _ xs 0 xs.length (bitsLen xs.length) true true

end GoSortPerm

/-!
Session store (`pkg/session/sqlite.go`).  The `session_entries` table of
one session is modelled as a list of entries maintained in `seq ASC`
order — the order every query of the code reads them in.  Row ids
(TEXT primary keys produced by `generateID`) are modelled by a fresh-id
counter; uniqueness of the primary key and strict monotonicity of `seq`
are the `SessInv` invariant below.  Timestamp columns (`created_at`,
`compressed_at`, `updated_at`) influence no computation in the session
store and are omitted.
-/

/-- Row of `session_entries`. -/
structure SEntry where
  id : Nat
  role : Bytes
  content : Bytes
  originalContent : Bytes
  source : Bytes
  embedding : List ℚ
  importance : ℚ
  level : Nat
  tokens : Nat
  seq : Nat
deriving DecidableEq, Repr, Inhabited

/-- One session: its `sessions` row (budget, threshold, tail size) plus
its entries and the fresh-id counter. -/
structure SessState where
  maxTokens : Nat
  dedupThreshold : ℚ
  preserveRecent : Nat
  entries : List SEntry
  nextId : Nat
deriving DecidableEq, Repr

/-- Sum of the `tokens` column over a list of entries
(`SELECT COALESCE(SUM(tokens), 0) ...`). -/
def sumTokens (l : List SEntry) : Nat := (l.map (·.tokens)).sum

/-- Primary-key and `seq` invariants guaranteed by the schema: ids are
below the fresh-id counter and pairwise distinct, and `seq` strictly
increases along the list. -/
def SessInv (st : SessState) : Prop :=
  (∀ e ∈ st.entries, e.id < st.nextId) ∧
  (st.entries.map (·.id)).Nodup ∧
  st.entries.Pairwise (fun a b => a.seq < b.seq)

/-- Translation of `isDuplicate`: some stored entry has a non-empty
embedding within the threshold (rows with NULL or undecodable embeddings
are skipped; both are modelled by the empty list). -/
def isDuplicate (ext : Ext) (st : SessState) (emb : List ℚ) : Bool :=
  st.entries.any fun e => e.embedding ≠ [] && decide (ext.dist emb e.embedding < st.dedupThreshold)

/-- One entry of a `PushRequest`. -/
structure PushEntryM where
  role : Bytes
  content : Bytes
  source : Bytes
  embedding : List ℚ
  importance : ℚ
deriving DecidableEq, Repr, Inhabited

/-- Importance normalisation performed by `Push`: non-positive values
become 0.5, all others are stored verbatim. -/
def normImp (q : ℚ) : ℚ := if q ≤ 0 then 1 / 2 else q

/-- Outcome of the insert phase of `Push`: either all entries processed,
or `ErrOverBudget` returned with the state persisted so far (the Go code
has already committed earlier inserts; there is no transaction). -/
inductive InsertOut where
  | ok (st : SessState) (maxSeq acc ded : Nat)
  | over (st : SessState)
deriving Repr

/-- Translation of the entry loop of `Push`: skip empty content,
normalise importance, dedup by embedding, reject a single entry larger
than the whole budget, otherwise insert with the next `seq`. -/
def insertLoop (ext : Ext) (st : SessState) (maxSeq acc ded : Nat) :
    List PushEntryM → InsertOut
  | [] => .ok st maxSeq acc ded
  | e :: rest =>
    if e.content = [] then insertLoop ext st maxSeq acc ded rest
    else
      let imp := normImp e.importance
      if e.embedding ≠ [] ∧ isDuplicate ext st e.embedding then
        insertLoop ext st maxSeq acc (ded + 1) rest
      else
        let tokens := estimateTokens e.content
        if st.maxTokens < tokens then .over st
        else
          let ne : SEntry :=
            { id := st.nextId, role := e.role, content := e.content,
              originalContent := e.content, source := e.source,
              embedding := e.embedding, importance := imp, level := 0,
              tokens := tokens, seq := maxSeq + 1 }
          insertLoop ext
            { st with entries := st.entries ++ [ne], nextId := st.nextId + 1 }
            (maxSeq + 1) (acc + 1) ded rest

/-- Comparison closure passed to `sort.Slice` by `sortCandidates`:
`c[i].importance < c[j].importance`. -/
def impLt (x y : SEntry) : Bool := decide (x.importance < y.importance)

/-- Translation of `sortCandidates`: `sort.Slice` (pdqsort, not stable)
by importance ascending. -/
def sortCandidates (cands : List SEntry) : List SEntry :=
  goSortSlice impLt cands

/-- `sortCandidates` returns a permutation of its input. -/
theorem sortCandidates_perm (cands : List SEntry) : List.Perm (sortCandidates cands) cands :=
  goSortSlice_perm impLt cands

/-- State after `DELETE FROM session_entries WHERE id = ?` for a
candidate already at the Keywords level. -/
def candDelete (st : SessState) (cid : Nat) : SessState :=
  { st with entries := st.entries.filter fun e => e.id ≠ cid }

/-- Recompressed content of a candidate: the next level applied to
`original_content` (never to the previously compressed form). -/
def newContentOf (ext : Ext) (c : SEntry) : Bytes :=
  compressToLevel ext c.originalContent (c.level + 1)

/-- Token estimate of the recompressed content. -/
def newTokensOf (ext : Ext) (c : SEntry) : Nat := estimateTokens (newContentOf ext c)

/-- Row rewrite of the `UPDATE session_entries SET content, 
compression_level, tokens ... WHERE id = ?` statement. -/
def compEntry (ext : Ext) (c : SEntry) (x : SEntry) : SEntry :=
  if x.id = c.id then
    { x with
      content := newContentOf ext c,
      level := c.level + 1,
      tokens := newTokensOf ext c }
  else x

/-- State after recompressing candidate `c` to its next level. -/
def candCompress (ext : Ext) (st : SessState) (c : SEntry) : SessState :=
  { st with entries := st.entries.map (compEntry ext c) }

/-- Candidate loop of `enforceBudget`: process candidates while over
budget; entries already at the Keywords level are deleted, all others
are recompressed from `original_content` to the next level.  `cur` is
the running token counter of the Go code (an `int`). -/
def candLoop (ext : Ext) (maxTokens : Nat) :
    List SEntry → SessState → Int → Nat → Nat → SessState × Nat × Nat
  | [], st, _, comp, evic => (st, comp, evic)
  | c :: rest, st, cur, comp, evic =>
    if cur ≤ (maxTokens : Int) then (st, comp, evic)
    else if 3 < c.level + 1 then
      candLoop ext maxTokens rest (candDelete st c.id) (cur - (c.tokens : Int)) comp (evic + 1)
    else
      candLoop ext maxTokens rest (candCompress ext st c)
        (cur - ((c.tokens : Int) - (newTokensOf ext c : Int))) (comp + 1) evic

/-- Translation of the loop of `evictOldest`: delete the entry with the
smallest `seq` (the list head) while over budget; the break on the
query error corresponds to the list being empty (on which the budget
check and the query short-circuit identically). -/
def evictLoop (maxTokens : Nat) : List SEntry → Int → Nat → List SEntry × Nat
  | [], _, evic => ([], evic)
  | e :: rest, cur, evic =>
    if cur ≤ (maxTokens : Int) then (e :: rest, evic)
    else evictLoop maxTokens rest (cur - (e.tokens : Int)) (evic + 1)

/-- Translation of `evictOldest`: fallback eviction, returning
`(0, evicted)`. -/
def evictOldest (st : SessState) (cur : Nat) : SessState × Nat × Nat :=
  let p := evictLoop st.maxTokens st.entries (cur : Int) 0
  ({ st with entries := p.1 }, 0, p.2)

/-- Translation of `enforceBudget`: one enforcement pass.  `limit <= 0`
(all entries inside the `preserve_recent` tail) triggers fallback
eviction; otherwise the first `totalEntries - preserveRecent` entries in
`seq` order are sorted by importance and processed. -/
def enforceBudget (ext : Ext) (st : SessState) : SessState × Nat × Nat :=
  let currentTokens := sumTokens st.entries
  if currentTokens ≤ st.maxTokens then (st, 0, 0)
  else
    let totalEntries := st.entries.length
    if totalEntries ≤ st.preserveRecent then evictOldest st currentTokens
    else
      let cands := st.entries.take (totalEntries - st.preserveRecent)
      candLoop ext st.maxTokens (sortCandidates cands) st (currentTokens : Int) 0 0

/-- Result of the enforcement fixpoint: final state, total compressed and
evicted counters, and whether the fixpoint (a pass reporting no
progress) was reached within the given fuel. -/
structure LoopRes where
  state : SessState
  comp : Nat
  evic : Nat
  done : Bool
deriving Repr

/-- Enforcement fixpoint of `Push`: repeat `enforceBudget` until a pass
reports no compression and no eviction.  The Go loop is unbounded; the
model carries fuel, and the termination theorem shows that
`mu st + 1` passes always reach the fixpoint. -/
def enforceLoop (ext : Ext) : Nat → SessState → Nat → Nat → LoopRes
  | 0, st, comp, evic => ⟨st, comp, evic, false⟩
  | fuel + 1, st, comp, evic =>
    let p := enforceBudget ext st
    if p.2.1 = 0 ∧ p.2.2 = 0 then ⟨p.1, comp, evic, true⟩
    else enforceLoop ext fuel p.1 (comp + p.2.1) (evic + p.2.2)

/-- Termination measure of the enforcement fixpoint: an entry at level
`l` can be compressed `3 - l` more times and then evicted once. -/
def weight (e : SEntry) : Nat := 4 - min e.level 3

/-- Total measure of a session state. -/
def mu (st : SessState) : Nat := (st.entries.map weight).sum

/-- Result record of `Push`. -/
structure PushRes where
  accepted : Nat
  deduplicated : Nat
  compressed : Nat
  evicted : Nat
  currentTokens : Nat
  budgetRemaining : Int
deriving DecidableEq, Repr

/-- Outcome of `Push` on an existing session: success with the new state
and result record, or `ErrOverBudget` with the state persisted up to the
offending entry. -/
inductive PushOut where
  | ok (st : SessState) (res : PushRes)
  | overBudget (st : SessState)
deriving DecidableEq, Repr

/-- State reached by a push outcome (the database contents after the
call, whether or not an error was returned). -/
def PushOut.stateOf : PushOut → SessState
  | .ok st _ => st
  | .overBudget st => st

/-- Translation of `Push` for an existing session: read `MAX(seq)`, run
the insert loop, then the enforcement fixpoint, then report counters.
An `ErrOverBudget` return skips enforcement, exactly as the early
`return` in Go does. -/
def push (ext : Ext) (st : SessState) (req : List PushEntryM) : PushOut :=
  let maxSeq := st.entries.foldl (fun m e => max m e.seq) 0
  match insertLoop ext st maxSeq 0 0 req with
  | .over st1 => .overBudget st1
  | .ok st1 _ acc ded =>
    let r := enforceLoop ext (mu st1 + 1) st1 0 0
    let cur := sumTokens r.state.entries
    .ok r.state
      { accepted := acc, deduplicated := ded, compressed := r.comp,
        evicted := r.evic, currentTokens := cur,
        budgetRemaining := (st.maxTokens : Int) - (cur : Int) }

/-!
Translation of `Context`.  Entries are read in `seq` order, optionally
filtered by role, and accumulated until the optional token budget would
be exceeded.  The aggregate `totalOriginalTokens` is computed by the SQL
expression `COALESCE(SUM(LENGTH(original_content)+3)/4, 0)` — note that
the division by 4 sits outside the `SUM`, and that SQLite's `LENGTH`
counts characters of a TEXT value, which equals the byte count for the
ASCII content this model ranges over.  The returned age strings are
presentation only and are omitted.
-/

/-- Walk of the `Context` result rows: stop before an entry that would
push the running total over `req.MaxTokens` (when positive).  Returns
the included entries and the final token count. -/
def contextWalk (maxT : Int) : List SEntry → Nat → List SEntry × Nat
  | [], tc => ([], tc)
  | r :: rest, tc =>
    if 0 < maxT ∧ maxT < (tc : Int) + (r.tokens : Int) then ([], tc)
    else
      let p := contextWalk maxT rest (tc + r.tokens)
      (r :: p.1, p.2)

/-- Result of `Context`: included entries, their token count, and the
`compression_savings` statistic. -/
structure ContextRes where
  entries : List SEntry
  tokenCount : Nat
  savings : Int
deriving DecidableEq, Repr

/-- Translation of `Context` on an existing session; `role = none` models
an empty role filter. -/
def contextRun (st : SessState) (role : Option Bytes) (maxT : Int) : ContextRes :=
  let rows := match role with
    | none => st.entries
    | some ro => st.entries.filter (fun e => e.role = ro)
  let p := contextWalk maxT rows 0
  let totalOriginalTokens : Nat := ((st.entries.map (fun e => e.originalContent.length + 3)).sum) / 4
  { entries := p.1, tokenCount := p.2,
    savings := (totalOriginalTokens : Int) - (p.2 : Int) }

/-!
Invariant and measure lemmas for the session budget-enforcement
pipeline, leading to the budget invariant and the termination of the
enforcement fixpoint.
-/

section SessionLemmas

/-- Sums of a map do not grow under a filter. -/
theorem sum_map_filter_le {α : Type} (f : α → Nat) (p : α → Bool) :
    ∀ l : List α, ((l.filter p).map f).sum ≤ (l.map f).sum
  | [] => le_refl _
  | x :: l => by
    have ih := sum_map_filter_le f p l
    by_cases hx : p x
    · simp only [List.filter_cons, hx, if_true, List.map_cons, List.sum_cons]
      omega
    · simp [List.filter_cons, hx]
      omega

/-- Filtering out a present element of positive measure strictly shrinks
the sum. -/
theorem sum_map_filter_add_one_le {α : Type} (f : α → Nat) (p : α → Bool)
    (hf : ∀ x, 1 ≤ f x) :
    ∀ (l : List α) (e : α), e ∈ l → p e = false →
      ((l.filter p).map f).sum + 1 ≤ (l.map f).sum
  | x :: l, e, he, hpe => by
    rcases List.mem_cons.mp he with rfl | hmem
    · have h1 := sum_map_filter_le f p l
      have h2 := hf e
      simp [List.filter_cons, hpe]
      omega
    · by_cases hx : p x
      · have h1 := sum_map_filter_add_one_le f p hf l e hmem hpe
        simp only [List.filter_cons, hx, if_true, List.map_cons, List.sum_cons]
        omega
      · have h1 := sum_map_filter_add_one_le f p hf l e hmem hpe
        simp [List.filter_cons, hx]
        omega

/-- Pointwise non-increasing rewrites do not grow the sum. -/
theorem sum_map_map_le {α : Type} (f : α → Nat) (h : α → α) :
    ∀ (l : List α), (∀ x ∈ l, f (h x) ≤ f x) → ((l.map h).map f).sum ≤ (l.map f).sum
  | [], _ => le_refl _
  | x :: l, hpt => by
    have h1 := sum_map_map_le f h l (fun y hy => hpt y (List.mem_cons_of_mem x hy))
    have h2 := hpt x (List.mem_cons_self x l)
    simp only [List.map_cons, List.sum_cons]
    omega

/-- Pointwise non-increasing rewrites that strictly shrink one present
element strictly shrink the sum. -/
theorem sum_map_map_add_one_le {α : Type} (f : α → Nat) (h : α → α) :
    ∀ (l : List α), (∀ x ∈ l, f (h x) ≤ f x) →
      ∀ e ∈ l, f (h e) + 1 ≤ f e →
      ((l.map h).map f).sum + 1 ≤ (l.map f).sum
  | x :: l, hpt, e, he, hst => by
    rcases List.mem_cons.mp he with rfl | hmem
    · have h1 := sum_map_map_le f h l (fun y hy => hpt y (List.mem_cons_of_mem e hy))
      simp only [List.map_cons, List.sum_cons]
      omega
    · have h1 := sum_map_map_add_one_le f h l
        (fun y hy => hpt y (List.mem_cons_of_mem x hy)) e hmem hst
      have h2 := hpt x (List.mem_cons_self x l)
      simp only [List.map_cons, List.sum_cons]
      omega

/-- Every entry weighs at least one eviction step. -/
theorem weight_pos (e : SEntry) : 1 ≤ weight e := by
  unfold weight; omega

/-- `SessInv` descends to sublists of the entries. -/
theorem sessInv_sublist {st : SessState} {l : List SEntry}
    (hs : List.Sublist l st.entries) (h : SessInv st) :
    SessInv { st with entries := l } := by
  obtain ⟨hid, hnd, hsq⟩ := h
  refine ⟨fun e he => hid e (hs.subset he), ?_, hsq.sublist hs⟩
  exact List.Nodup.sublist (hs.map (·.id)) hnd

/-- `SessInv` survives id- and seq-preserving rewrites of the entries. -/
theorem sessInv_map {st : SessState} (f : SEntry → SEntry)
    (hid : ∀ e, (f e).id = e.id) (hseq : ∀ e, (f e).seq = e.seq) (h : SessInv st) :
    SessInv { st with entries := st.entries.map f } := by
  obtain ⟨hb, hnd, hsq⟩ := h
  refine ⟨?_, ?_, ?_⟩
  · intro e he
    obtain ⟨x, hx, rfl⟩ := List.mem_map.mp he
    simpa [hid] using hb x hx
  · have heq : (st.entries.map f).map (·.id) = st.entries.map (·.id) := by
      rw [List.map_map]
      exact List.map_congr_left fun e _ => hid e
    simpa [heq] using hnd
  · rw [List.pairwise_map]
    simpa [hseq] using hsq

/-- Specification of the fallback eviction loop: the remaining entries
are a sublist, the measure drops by at least the number of evictions,
and the eviction counter is monotone. -/
theorem evictLoop_spec (mt : Nat) :
    ∀ (l : List SEntry) (cur : Int) (ev : Nat),
      List.Sublist (evictLoop mt l cur ev).1 l ∧
      ((evictLoop mt l cur ev).1.map weight).sum + (evictLoop mt l cur ev).2
        ≤ (l.map weight).sum + ev ∧
      ev ≤ (evictLoop mt l cur ev).2
  | [], cur, ev => by
    simp only [evictLoop]
    exact ⟨List.Sublist.refl _, le_refl _, le_refl _⟩
  | x :: rest, cur, ev => by
    simp only [evictLoop]
    split
    · exact ⟨List.Sublist.refl _, le_refl _, le_refl _⟩
    · have ih := evictLoop_spec mt rest (cur - (x.tokens : Int)) (ev + 1)
      have hw := weight_pos x
      refine ⟨ih.1.trans (List.sublist_cons_self x rest), ?_, by omega⟩
      have h2 := ih.2.1
      simp only [List.map_cons, List.sum_cons]
      omega

/-- Over budget with entries present, the fallback loop evicts at least
one entry. -/
theorem evictLoop_progress (mt : Nat) (x : SEntry) (rest : List SEntry) (cur : Int)
    (ev : Nat) (hcur : ¬ cur ≤ (mt : Int)) :
    ev + 1 ≤ (evictLoop mt (x :: rest) cur ev).2 := by
  simp only [evictLoop]
  rw [if_neg hcur]
  exact le_trans (by omega) (evictLoop_spec mt rest (cur - (x.tokens : Int)) (ev + 1)).2.2

/-- The candidate loop only increases its counters. -/
theorem candLoop_counters_mono (ext : Ext) (mt : Nat) :
    ∀ (cs : List SEntry) (st : SessState) (cur : Int) (comp evic : Nat),
      comp ≤ (candLoop ext mt cs st cur comp evic).2.1 ∧
      evic ≤ (candLoop ext mt cs st cur comp evic).2.2
  | [], _, _, _, _ => ⟨le_refl _, le_refl _⟩
  | c :: rest, st, cur, comp, evic => by
    simp only [candLoop]
    split
    · exact ⟨le_refl _, le_refl _⟩
    · split
      · have := candLoop_counters_mono ext mt rest (candDelete st c.id)
          (cur - (c.tokens : Int)) comp (evic + 1)
        omega
      · have := candLoop_counters_mono ext mt rest (candCompress ext st c)
          (cur - ((c.tokens : Int) - (newTokensOf ext c : Int))) (comp + 1) evic
        omega

/-- Specification of the candidate loop: it preserves the invariant and
the session configuration, and each counted operation pays for itself in
the measure. -/
theorem candLoop_spec (ext : Ext) (mt : Nat) :
    ∀ (cs : List SEntry) (st : SessState) (cur : Int) (comp evic : Nat),
      SessInv st → (cs.map (·.id)).Nodup →
      (∀ c ∈ cs, ∃ e ∈ st.entries, e.id = c.id ∧ e.level = c.level) →
      SessInv (candLoop ext mt cs st cur comp evic).1 ∧
      (candLoop ext mt cs st cur comp evic).1.maxTokens = st.maxTokens ∧
      mu (candLoop ext mt cs st cur comp evic).1
        + (candLoop ext mt cs st cur comp evic).2.1
        + (candLoop ext mt cs st cur comp evic).2.2
        ≤ mu st + comp + evic
  | [], st, cur, comp, evic => fun hinv _ _ => ⟨hinv, rfl, le_refl _⟩
  | c :: rest, st, cur, comp, evic => fun hinv hnd hmatch => by
    rw [List.map_cons] at hnd
    obtain ⟨hcid, hndrest⟩ := List.nodup_cons.mp hnd
    obtain ⟨e, he, heid, helev⟩ := hmatch c (List.mem_cons_self c rest)
    simp only [candLoop]
    split
    · exact ⟨hinv, rfl, le_refl _⟩
    · split
      · -- eviction of an entry already at the Keywords level
        have hinv' : SessInv (candDelete st c.id) :=
          sessInv_sublist (List.filter_sublist st.entries) hinv
        have hmu : mu (candDelete st c.id) + 1 ≤ mu st := by
          have := sum_map_filter_add_one_le weight (fun x => decide (x.id ≠ c.id)) weight_pos
            st.entries e he (by simp [heid])
          simpa [mu, candDelete] using this
        have hmatch' : ∀ c' ∈ rest,
            ∃ e' ∈ (candDelete st c.id).entries, e'.id = c'.id ∧ e'.level = c'.level := by
          intro c' hc'
          obtain ⟨e', he', heid', helev'⟩ := hmatch c' (List.mem_cons_of_mem c hc')
          refine ⟨e', List.mem_filter.mpr ⟨he', ?_⟩, heid', helev'⟩
          have hmm : c'.id ∈ rest.map (·.id) := List.mem_map.mpr ⟨c', hc', rfl⟩
          simp only [decide_eq_true_eq]
          intro hcontra
          exact hcid (by rw [← heid', hcontra] at hmm; exact hmm)
        have ih := candLoop_spec ext mt rest (candDelete st c.id)
          (cur - (c.tokens : Int)) comp (evic + 1) hinv' hndrest hmatch'
        refine ⟨ih.1, ih.2.1.trans rfl, ?_⟩
        have := ih.2.2
        omega
      · -- recompression to the next level
        rename_i hcur hlev
        have hlev3 : c.level ≤ 2 := by omega
        have hfid : ∀ x, (compEntry ext c x).id = x.id := by
          intro x; simp only [compEntry]; split <;> rfl
        have hfseq : ∀ x, (compEntry ext c x).seq = x.seq := by
          intro x; simp only [compEntry]; split <;> rfl
        have hinv' : SessInv (candCompress ext st c) :=
          sessInv_map (compEntry ext c) hfid hfseq hinv
        have hinj := List.inj_on_of_nodup_map hinv.2.1
        have hpt : ∀ x ∈ st.entries, weight (compEntry ext c x) ≤ weight x := by
          intro x hx
          simp only [compEntry]
          split
          · rename_i hxid
            have hxe : x = e := hinj hx he (by rw [hxid, heid])
            subst hxe
            simp only [weight, helev]
            omega
          · exact le_refl _
        have hst : weight (compEntry ext c e) + 1 ≤ weight e := by
          simp only [compEntry, heid, if_true, weight, helev]
          omega
        have hmu : mu (candCompress ext st c) + 1 ≤ mu st := by
          simpa [mu, candCompress] using
            sum_map_map_add_one_le weight (compEntry ext c) st.entries hpt e he hst
        have hmatch' : ∀ c' ∈ rest,
            ∃ e' ∈ (candCompress ext st c).entries, e'.id = c'.id ∧ e'.level = c'.level := by
          intro c' hc'
          obtain ⟨e', he', heid', helev'⟩ := hmatch c' (List.mem_cons_of_mem c hc')
          have hne : e'.id ≠ c.id := by
            have hmm : c'.id ∈ rest.map (·.id) := List.mem_map.mpr ⟨c', hc', rfl⟩
            intro hcontra
            exact hcid (by rw [← heid', hcontra] at hmm; exact hmm)
          have hfe : compEntry ext c e' = e' := by
            simp only [compEntry]
            rw [if_neg hne]
          exact ⟨e', List.mem_map.mpr ⟨e', he', hfe⟩, heid', helev'⟩
        have ih := candLoop_spec ext mt rest (candCompress ext st c)
          (cur - ((c.tokens : Int) - (newTokensOf ext c : Int))) (comp + 1) evic
          hinv' hndrest hmatch'
        refine ⟨ih.1, ih.2.1.trans rfl, ?_⟩
        have := ih.2.2
        omega

/-- Over budget with a non-empty candidate list, the candidate loop
performs at least one operation. -/
theorem candLoop_progress (ext : Ext) (mt : Nat) (c : SEntry) (rest : List SEntry)
    (st : SessState) (cur : Int) (comp evic : Nat) (hcur : ¬ cur ≤ (mt : Int)) :
    comp + evic + 1 ≤ (candLoop ext mt (c :: rest) st cur comp evic).2.1
      + (candLoop ext mt (c :: rest) st cur comp evic).2.2 := by
  simp only [candLoop]
  rw [if_neg hcur]
  split
  · have := candLoop_counters_mono ext mt rest (candDelete st c.id)
      (cur - (c.tokens : Int)) comp (evic + 1)
    omega
  · have := candLoop_counters_mono ext mt rest (candCompress ext st c)
      (cur - ((c.tokens : Int) - (newTokensOf ext c : Int))) (comp + 1) evic
    omega

/-- Specification of one enforcement pass: the invariant and the session
configuration are preserved; a pass reporting progress strictly
decreases the measure; a pass reporting no progress leaves the state
untouched and certifies that the budget is met. -/
theorem enforceBudget_spec (ext : Ext) (st : SessState) (hinv : SessInv st) :
    SessInv (enforceBudget ext st).1 ∧
    (enforceBudget ext st).1.maxTokens = st.maxTokens ∧
    (¬ ((enforceBudget ext st).2.1 = 0 ∧ (enforceBudget ext st).2.2 = 0) →
      mu (enforceBudget ext st).1 < mu st) ∧
    (((enforceBudget ext st).2.1 = 0 ∧ (enforceBudget ext st).2.2 = 0) →
      (enforceBudget ext st).1 = st ∧ sumTokens st.entries ≤ st.maxTokens) := by
  simp only [enforceBudget]
  split
  case isTrue h =>
    refine ⟨hinv, ?_, ?_, ?_⟩
    · trivial
    · intro hc; exact absurd ⟨rfl, rfl⟩ hc
    · intro _; exact ⟨by trivial, h⟩
  case isFalse h =>
    have hne : st.entries ≠ [] := by
      intro hnil
      exact h (by simp [sumTokens, hnil])
    have hcur : ¬ ((sumTokens st.entries : Int) ≤ (st.maxTokens : Int)) := by
      exact_mod_cast h
    split
    case isTrue hall =>
      simp only [evictOldest]
      have hspec := evictLoop_spec st.maxTokens st.entries ((sumTokens st.entries : Nat) : Int) 0
      obtain ⟨x, rest, hx⟩ := List.exists_cons_of_ne_nil hne
      have hprog : 0 + 1 ≤ (evictLoop st.maxTokens st.entries
          ((sumTokens st.entries : Nat) : Int) 0).2 := by
        rw [hx]
        exact evictLoop_progress st.maxTokens x rest _ 0 (hx ▸ hcur)
      refine ⟨sessInv_sublist hspec.1 hinv, by trivial, fun _ => ?_, fun hzero => ?_⟩
      · have h1 := hspec.2.1
        have h2 : mu { st with entries :=
            (evictLoop st.maxTokens st.entries ((sumTokens st.entries : Nat) : Int) 0).1 }
            = ((evictLoop st.maxTokens st.entries
                ((sumTokens st.entries : Nat) : Int) 0).1.map weight).sum := rfl
        have h3 : mu st = (st.entries.map weight).sum := rfl
        omega
      · exact absurd hzero.2 (by omega)
    case isFalse hsome =>
      set cands := st.entries.take (st.entries.length - st.preserveRecent) with hcands
      have hperm := sortCandidates_perm cands
      have hndc : (cands.map (·.id)).Nodup := by
        rw [hcands]
        exact List.Nodup.sublist
          ((List.take_sublist (st.entries.length - st.preserveRecent) st.entries).map (·.id))
          hinv.2.1
      have hnd : ((sortCandidates cands).map (·.id)).Nodup :=
        ((hperm.map (·.id)).nodup_iff).mpr hndc
      have hmatch : ∀ c ∈ sortCandidates cands,
          ∃ e ∈ st.entries, e.id = c.id ∧ e.level = c.level := by
        intro c hc
        refine ⟨c, ?_, rfl, rfl⟩
        have hcc := hperm.mem_iff.mp hc
        rw [hcands] at hcc
        exact (List.take_sublist _ _).subset hcc
      have hspec := candLoop_spec ext st.maxTokens (sortCandidates cands) st
        ((sumTokens st.entries : Nat) : Int) 0 0 hinv hnd hmatch
      have hsne : sortCandidates cands ≠ [] := by
        intro hnil
        have hlen := hperm.length_eq
        rw [hnil] at hlen
        have : cands.length = min (st.entries.length - st.preserveRecent)
            st.entries.length := by
          rw [hcands, List.length_take]
        have hpos : 0 < st.entries.length - st.preserveRecent := by omega
        have hepos : 0 < st.entries.length := by
          cases hh : st.entries with
          | nil => exact absurd hh hne
          | cons a l => simp [hh]
        simp only [List.length_nil] at hlen
        omega
      obtain ⟨c0, cs0, hs0⟩ := List.exists_cons_of_ne_nil hsne
      have hprog : 0 + 0 + 1 ≤ (candLoop ext st.maxTokens (sortCandidates cands) st
          ((sumTokens st.entries : Nat) : Int) 0 0).2.1
          + (candLoop ext st.maxTokens (sortCandidates cands) st
            ((sumTokens st.entries : Nat) : Int) 0 0).2.2 := by
        rw [hs0]
        exact candLoop_progress ext st.maxTokens c0 cs0 st _ 0 0 hcur
      refine ⟨hspec.1, hspec.2.1, fun _ => ?_, fun hzero => ?_⟩
      · have := hspec.2.2
        omega
      · exact absurd hzero (by omega)

/-- Specification of the enforcement fixpoint: with fuel exceeding the
measure it reaches a no-progress pass, preserving the invariant and the
budget, and certifying Σ tokens ≤ max_tokens on exit. -/
theorem enforceLoop_spec (ext : Ext) :
    ∀ (fuel : Nat) (st : SessState) (c e : Nat), SessInv st → mu st < fuel →
      (enforceLoop ext fuel st c e).done = true ∧
      SessInv (enforceLoop ext fuel st c e).state ∧
      (enforceLoop ext fuel st c e).state.maxTokens = st.maxTokens ∧
      sumTokens (enforceLoop ext fuel st c e).state.entries ≤ st.maxTokens
  | 0, st, c, e => fun _ h => absurd h (by omega)
  | fuel + 1, st, c, e => fun hinv hfuel => by
    have hspec := enforceBudget_spec ext st hinv
    simp only [enforceLoop]
    split
    case isTrue hz =>
      obtain ⟨hst_eq, hsum⟩ := hspec.2.2.2 hz
      refine ⟨rfl, ?_, hspec.2.1, ?_⟩
      · show SessInv (enforceBudget ext st).1
        rw [hst_eq]; exact hinv
      · show sumTokens (enforceBudget ext st).1.entries ≤ st.maxTokens
        rw [hst_eq]; exact hsum
    case isFalse hnz =>
      have hprog := hspec.2.2.1 hnz
      have ih := enforceLoop_spec ext fuel (enforceBudget ext st).1
        (c + (enforceBudget ext st).2.1) (e + (enforceBudget ext st).2.2)
        hspec.1 (by omega)
      refine ⟨ih.1, ih.2.1, ih.2.2.1.trans hspec.2.1, ?_⟩
      exact le_of_le_of_eq ih.2.2.2 hspec.2.1

/-- State reached by the insert phase, whether it completed or returned
`ErrOverBudget`. -/
def InsertOut.stateOf : InsertOut → SessState
  | .ok st _ _ _ => st
  | .over st => st

/-- The fold computing `MAX(seq)` dominates its initial value. -/
theorem init_le_foldl_max :
    ∀ (l : List SEntry) (init : Nat), init ≤ l.foldl (fun m x => max m x.seq) init
  | [], _ => le_refl _
  | x :: l, init => le_trans (Nat.le_max_left init x.seq) (init_le_foldl_max l _)

/-- The fold computing `MAX(seq)` dominates every entry's `seq`. -/
theorem seq_le_foldl_max :
    ∀ (l : List SEntry) (init : Nat), ∀ e ∈ l, e.seq ≤ l.foldl (fun m x => max m x.seq) init
  | x :: l, init, e, he => by
    rcases List.mem_cons.mp he with rfl | hm
    · exact le_trans (Nat.le_max_right init e.seq) (init_le_foldl_max l _)
    · exact seq_le_foldl_max l _ e hm

/-- Specification of the insert phase of `Push`: it preserves the
invariant and the session configuration, and only appends entries. -/
theorem insertLoop_spec (ext : Ext) :
    ∀ (req : List PushEntryM) (st : SessState) (maxSeq acc ded : Nat),
      SessInv st → (∀ e ∈ st.entries, e.seq ≤ maxSeq) →
      SessInv (insertLoop ext st maxSeq acc ded req).stateOf ∧
      (insertLoop ext st maxSeq acc ded req).stateOf.maxTokens = st.maxTokens ∧
      (insertLoop ext st maxSeq acc ded req).stateOf.preserveRecent = st.preserveRecent ∧
      ∃ tail, (insertLoop ext st maxSeq acc ded req).stateOf.entries = st.entries ++ tail
  | [], st, maxSeq, acc, ded => fun hinv _ =>
    ⟨hinv, rfl, rfl, [], by simp [insertLoop, InsertOut.stateOf]⟩
  | e :: rest, st, maxSeq, acc, ded => fun hinv hseq => by
    simp only [insertLoop]
    split
    · exact insertLoop_spec ext rest st maxSeq acc ded hinv hseq
    · split
      · exact insertLoop_spec ext rest st maxSeq acc (ded + 1) hinv hseq
      · split
        · exact ⟨hinv, rfl, rfl, [], by simp [InsertOut.stateOf]⟩
        · set ne : SEntry :=
            { id := st.nextId, role := e.role, content := e.content,
              originalContent := e.content, source := e.source,
              embedding := e.embedding, importance := normImp e.importance, level := 0,
              tokens := estimateTokens e.content, seq := maxSeq + 1 } with hne
          set st' : SessState :=
            { st with entries := st.entries ++ [ne], nextId := st.nextId + 1 } with hst'
          have hinv' : SessInv st' := by
            obtain ⟨hb, hnd, hsq⟩ := hinv
            refine ⟨?_, ?_, ?_⟩
            · intro x hx
              rcases List.mem_append.mp hx with hx | hx
              · exact lt_trans (hb x hx) (Nat.lt_succ_self _)
              · rcases List.mem_singleton.mp hx with rfl
                exact Nat.lt_succ_self _
            · rw [List.map_append]
              refine List.Nodup.append hnd (List.nodup_singleton _) ?_
              intro a ha hb'
              obtain ⟨x, hx, rfl⟩ := List.mem_map.mp ha
              rcases List.mem_singleton.mp hb' with hcontra
              exact absurd (hcontra ▸ hb x hx) (lt_irrefl _)
            · rw [List.pairwise_append]
              refine ⟨hsq, List.pairwise_singleton _ _, ?_⟩
              intro a ha b hb'
              rcases List.mem_singleton.mp hb' with rfl
              exact Nat.lt_succ_of_le (hseq a ha)
          have hseq' : ∀ x ∈ st'.entries, x.seq ≤ maxSeq + 1 := by
            intro x hx
            rcases List.mem_append.mp hx with hx | hx
            · exact le_trans (hseq x hx) (Nat.le_succ _)
            · rcases List.mem_singleton.mp hx with rfl
              exact le_refl _
          have ih := insertLoop_spec ext rest st' (maxSeq + 1) (acc + 1) ded hinv' hseq'
          obtain ⟨tail, htail⟩ := ih.2.2.2
          exact ⟨ih.1, ih.2.1, ih.2.2.1, ne :: tail, by
            rw [htail, hst']
            simp⟩

/-- Decidability of the session invariant, for concrete witnesses. -/
instance sessInvDecidable (st : SessState) : Decidable (SessInv st) := by
  unfold SessInv
  infer_instance

end SessionLemmas

/-!
Claim theorems about the session budget pipeline (C1, C10), with the
concrete instantiations used by their witnesses.
-/

/-- Concrete instantiation of the external collaborators used by
witnesses and counterexamples: every cosine distance is 1 (nothing
deduplicates) and the summary compressor returns its input. -/
def extW : Ext := { dist := fun _ _ => 1, summarize := fun s => s }

/-- C1: for every session state satisfying the schema invariants and
every successful `Push`, the sum of `tokens` over the session's
remaining entries is at most the session's `max_tokens`.  This is the
stronger, unconditional form of the claimed disjunction: fallback
eviction also runs until the budget is met, so the pathological
exception the claim allows never materialises. -/
theorem push_budget_invariant (ext : Ext) (st : SessState) (req : List PushEntryM)
    (st' : SessState) (res : PushRes) (hinv : SessInv st)
    (h : push ext st req = PushOut.ok st' res) :
    sumTokens st'.entries ≤ st.maxTokens := by
  simp only [push] at h
  cases hins : insertLoop ext st (st.entries.foldl (fun m e => max m e.seq) 0) 0 0 req with
  | over st1 =>
    rw [hins] at h
    exact PushOut.noConfusion h
  | ok st1 ms acc ded =>
    rw [hins] at h
    have hsp := insertLoop_spec ext req st (st.entries.foldl (fun m e => max m e.seq) 0) 0 0
      hinv (fun e he => seq_le_foldl_max st.entries 0 e he)
    rw [hins] at hsp
    have hloop := enforceLoop_spec ext (mu st1 + 1) st1 0 0 hsp.1 (Nat.lt_succ_self _)
    cases h
    exact le_of_le_of_eq hloop.2.2.2 hsp.2.1

/-- Session used by the C1 witness. -/
def c1st : SessState :=
  { maxTokens := 3, dedupThreshold := 0, preserveRecent := 1, entries := [], nextId := 0 }

/-- Request used by the C1 witness. -/
def c1req : List PushEntryM :=
  [{ role := [117], content := [97, 98], source := [], embedding := [], importance := 1 }]

/-- Entry stored by the C1 witness push. -/
def c1entry : SEntry :=
  { id := 0, role := [117], content := [97, 98], originalContent := [97, 98], source := [],
    embedding := [], importance := 1, level := 0, tokens := 1, seq := 1 }

/-- Result state of the C1 witness push. -/
def c1out : SessState :=
  { maxTokens := 3, dedupThreshold := 0, preserveRecent := 1,
    entries := [c1entry], nextId := 1 }

/-- Result record of the C1 witness push. -/
def c1res : PushRes :=
  { accepted := 1, deduplicated := 0, compressed := 0, evicted := 0,
    currentTokens := 1, budgetRemaining := 2 }

/-- Witness for C1: a concrete push on an empty session, evaluated. -/
theorem push_budget_invariant_witness : sumTokens c1out.entries ≤ c1st.maxTokens :=
  push_budget_invariant extW c1st c1req c1out c1res (by decide) (by rfl)

/-- C10: the budget-enforcement fixpoint loop of `Push` terminates: on
every session state satisfying the schema invariants, `mu st + 1` passes
(the fuel `push` runs it with) reach a pass reporting no compression and
no eviction, because a progress pass strictly decreases `mu` (each
compression raises a level bounded by Keywords, each eviction removes an
entry, and fallback eviction removes oldest entries), so `Push` always
returns. -/
theorem enforce_fixpoint_terminates (ext : Ext) (st : SessState) (hinv : SessInv st) :
    (enforceLoop ext (mu st + 1) st 0 0).done = true :=
  (enforceLoop_spec ext (mu st + 1) st 0 0 hinv (Nat.lt_succ_self _)).1

/-- Over-budget two-entry session used by the C10 witness. -/
def c10st : SessState :=
  { maxTokens := 1, dedupThreshold := 0, preserveRecent := 1,
    entries := [
      { id := 0, role := [], content := [97, 97, 97, 97],
        originalContent := [97, 97, 97, 97], source := [], embedding := [],
        importance := 1, level := 0, tokens := 1, seq := 1 },
      { id := 1, role := [], content := [98, 98, 98, 98],
        originalContent := [98, 98, 98, 98], source := [], embedding := [],
        importance := 2, level := 0, tokens := 1, seq := 2 }],
    nextId := 2 }

/-- Witness for C10: the fixpoint is reached on a concrete over-budget
session (the first entry is compressed through every level and finally
evicted). -/
theorem enforce_fixpoint_terminates_witness :
    (enforceLoop extW (mu c10st + 1) c10st 0 0).done = true :=
  enforce_fixpoint_terminates extW c10st (by decide)

/-!
Claim C2: OverBudget error semantics.  `Push` commits each insert as it
goes (there is no transaction), so when the over-budget entry is not the
first accepted candidate of the request, the earlier inserts remain:
the session state is not left unchanged.
-/

/-- The insert phase only appends to the entries (no invariant needed). -/
theorem insertLoop_extends (ext : Ext) :
    ∀ (req : List PushEntryM) (st : SessState) (maxSeq acc ded : Nat),
      ∃ tail, (insertLoop ext st maxSeq acc ded req).stateOf.entries = st.entries ++ tail
  | [], st, maxSeq, acc, ded => ⟨[], by simp [insertLoop, InsertOut.stateOf]⟩
  | e :: rest, st, maxSeq, acc, ded => by
    simp only [insertLoop]
    split
    · exact insertLoop_extends ext rest st maxSeq acc ded
    · split
      · exact insertLoop_extends ext rest st maxSeq acc (ded + 1)
      · split
        · exact ⟨[], by simp [InsertOut.stateOf]⟩
        · obtain ⟨tail, htail⟩ := insertLoop_extends ext rest
            { st with
              entries := st.entries ++ [{
                id := st.nextId,
                role := e.role,
                content := e.content,
                originalContent := e.content,
                source := e.source,
                embedding := e.embedding,
                importance := normImp e.importance,
                level := 0,
                tokens := estimateTokens e.content,
                seq := maxSeq + 1 }],
              nextId := st.nextId + 1 }
            (maxSeq + 1) (acc + 1) ded
          exact ⟨_, by rw [htail, List.append_assoc]⟩

/-- Decomposition of an `ErrOverBudget` return of the insert phase: the
request splits around a first offending entry; the persisted state is
exactly the result of processing the prefix, and the offending entry is
non-empty, not deduplicated, and alone exceeds the budget. -/
theorem insertLoop_over_decomp (ext : Ext) :
    ∀ (req : List PushEntryM) (st : SessState) (maxSeq acc ded : Nat) (st' : SessState),
      insertLoop ext st maxSeq acc ded req = InsertOut.over st' →
      ∃ pre e post, req = pre ++ e :: post ∧
        ∃ ms acc2 ded2,
          insertLoop ext st maxSeq acc ded pre = InsertOut.ok st' ms acc2 ded2 ∧
          e.content ≠ [] ∧
          ¬ (e.embedding ≠ [] ∧ isDuplicate ext st' e.embedding) ∧
          st'.maxTokens < estimateTokens e.content
  | [], st, maxSeq, acc, ded, st' => by
    intro h
    exact InsertOut.noConfusion h
  | e :: rest, st, maxSeq, acc, ded, st' => by
    simp only [insertLoop]
    split
    case isTrue hc =>
      intro h
      obtain ⟨pre, e2, post, heq, ms, acc2, ded2, hpre, hc2, hd2, hob2⟩ :=
        insertLoop_over_decomp ext rest st maxSeq acc ded st' h
      refine ⟨e :: pre, e2, post, by rw [heq]; rfl, ms, acc2, ded2, ?_, hc2, hd2, hob2⟩
      simp only [insertLoop, hc, if_true]
      exact hpre
    case isFalse hc =>
      split
      case isTrue hd =>
        intro h
        obtain ⟨pre, e2, post, heq, ms, acc2, ded2, hpre, hc2, hd2, hob2⟩ :=
          insertLoop_over_decomp ext rest st maxSeq acc (ded + 1) st' h
        refine ⟨e :: pre, e2, post, by rw [heq]; rfl, ms, acc2, ded2, ?_, hc2, hd2, hob2⟩
        simp only [insertLoop]
        rw [if_neg hc, if_pos hd]
        exact hpre
      case isFalse hd =>
        split
        case isTrue hob =>
          intro h
          cases h
          exact ⟨[], e, rest, rfl, maxSeq, acc, ded, by simp [insertLoop], hc, hd, hob⟩
        case isFalse hob =>
          intro h
          obtain ⟨pre, e2, post, heq, ms, acc2, ded2, hpre, hc2, hd2, hob2⟩ :=
            insertLoop_over_decomp ext rest _ (maxSeq + 1) (acc + 1) ded st' h
          refine ⟨e :: pre, e2, post, by rw [heq]; rfl, ms, acc2, ded2, ?_, hc2, hd2, hob2⟩
          simp only [insertLoop]
          rw [if_neg hc, if_neg hd, if_neg hob]
          exact hpre

/-- C2 (amended): when `Push` returns the OverBudget error, the request
splits around an offending entry that is non-empty, not deduplicated at
its turn, and alone exceeds `max_tokens`; the offending entry and the
entries after it are not inserted, but the entries of the same request
accepted before it remain inserted (the session state is the prefix
state, an extension of the original entries).  Only when the offending
entry is the first accepted candidate — in particular for single-entry
requests — is the session left unchanged. -/
theorem push_overBudget_partial (ext : Ext) (st : SessState) (req : List PushEntryM)
    (st' : SessState) (h : push ext st req = PushOut.overBudget st') :
    (∃ pre e post, req = pre ++ e :: post ∧
      ∃ ms acc2 ded2,
        insertLoop ext st (st.entries.foldl (fun m x => max m x.seq) 0) 0 0 pre
          = InsertOut.ok st' ms acc2 ded2 ∧
        e.content ≠ [] ∧
        ¬ (e.embedding ≠ [] ∧ isDuplicate ext st' e.embedding) ∧
        st'.maxTokens < estimateTokens e.content) ∧
    ∃ tail, st'.entries = st.entries ++ tail := by
  simp only [push] at h
  cases hins : insertLoop ext st (st.entries.foldl (fun m e => max m e.seq) 0) 0 0 req with
  | ok st1 ms acc ded =>
    rw [hins] at h
    exact PushOut.noConfusion h
  | over st1 =>
    rw [hins] at h
    cases h
    refine ⟨insertLoop_over_decomp ext req st _ 0 0 _ hins, ?_⟩
    obtain ⟨tail, htail⟩ := insertLoop_extends ext req st
      (st.entries.foldl (fun m e => max m e.seq) 0) 0 0
    rw [hins] at htail
    exact ⟨tail, htail⟩

/-- Session used by the C2 counterexample and witness. -/
def c2st : SessState :=
  { maxTokens := 5, dedupThreshold := 0, preserveRecent := 1, entries := [], nextId := 0 }

/-- Request of the C2 counterexample: a small entry followed by a
30-byte entry whose 8 estimated tokens exceed the budget of 5. -/
def c2req : List PushEntryM :=
  [{ role := [], content := [97, 98, 99, 100], source := [], embedding := [], importance := 1 },
   { role := [], content := List.replicate 30 120, source := [], embedding := [], importance := 1 }]

/-- State persisted by the C2 push: the first entry was committed. -/
def c2out : SessState :=
  { maxTokens := 5
    dedupThreshold := 0
    preserveRecent := 1
    entries := [{
      id := 0
      role := []
      content := [97, 98, 99, 100]
      originalContent := [97, 98, 99, 100]
      source := []
      embedding := []
      importance := 1
      level := 0
      tokens := 1
      seq := 1 }]
    nextId := 1 }

/-- Counterexample to C2 as stated: this push contains an entry whose
estimated tokens exceed `max_tokens` and indeed returns the OverBudget
error, but the session state is not left unchanged — the first entry of
the request was inserted and remains. -/
theorem push_overBudget_cex :
    push extW c2st c2req = PushOut.overBudget c2out ∧ c2out.entries ≠ c2st.entries :=
  ⟨by rfl, by decide⟩

/-- Witness for the amended C2 theorem at the concrete input. -/
theorem push_overBudget_partial_witness :
    (∃ pre e post, c2req = pre ++ e :: post ∧
      ∃ ms acc2 ded2,
        insertLoop extW c2st (c2st.entries.foldl (fun m x => max m x.seq) 0) 0 0 pre
          = InsertOut.ok c2out ms acc2 ded2 ∧
        e.content ≠ [] ∧
        ¬ (e.embedding ≠ [] ∧ isDuplicate extW c2out e.embedding) ∧
        c2out.maxTokens < estimateTokens e.content) ∧
    ∃ tail, c2out.entries = c2st.entries ++ tail :=
  push_overBudget_partial extW c2st c2req c2out (by rfl)

/-!
Claim C9: importance normalisation.  `Push` replaces non-positive
importance by 0.5 but performs no upper clamp: positive values are
stored verbatim, so stored importance can exceed 1.
-/

/-- Normalised importance is always positive. -/
theorem normImp_pos (q : ℚ) : 0 < normImp q := by
  unfold normImp
  split
  · norm_num
  · linarith [not_le.mp (by assumption)]

/-- Importance provenance through the insert phase: every stored entry
either was already present or carries the normalised importance of some
request entry. -/
theorem insertLoop_importance (ext : Ext) :
    ∀ (req : List PushEntryM) (st : SessState) (maxSeq acc ded : Nat),
      ∀ x ∈ (insertLoop ext st maxSeq acc ded req).stateOf.entries,
        x ∈ st.entries ∨ ∃ pe ∈ req, x.importance = normImp pe.importance
  | [], st, maxSeq, acc, ded => fun x hx => Or.inl (by simpa [insertLoop, InsertOut.stateOf] using hx)
  | e :: rest, st, maxSeq, acc, ded => fun x hx => by
    simp only [insertLoop] at hx
    split at hx
    · rcases insertLoop_importance ext rest st maxSeq acc ded x hx with h | ⟨pe, hpe, hi⟩
      · exact Or.inl h
      · exact Or.inr ⟨pe, List.mem_cons_of_mem e hpe, hi⟩
    · split at hx
      · rcases insertLoop_importance ext rest st maxSeq acc (ded + 1) x hx with h | ⟨pe, hpe, hi⟩
        · exact Or.inl h
        · exact Or.inr ⟨pe, List.mem_cons_of_mem e hpe, hi⟩
      · split at hx
        · exact Or.inl (by simpa [InsertOut.stateOf] using hx)
        · rcases insertLoop_importance ext rest _ (maxSeq + 1) (acc + 1) ded x hx with h | ⟨pe, hpe, hi⟩
          · rcases List.mem_append.mp h with h | h
            · exact Or.inl h
            · rcases List.mem_singleton.mp h with rfl
              exact Or.inr ⟨e, List.mem_cons_self e rest, rfl⟩
          · exact Or.inr ⟨pe, List.mem_cons_of_mem e hpe, hi⟩

/-- The candidate loop never changes an entry's importance. -/
theorem candLoop_importance (ext : Ext) (mt : Nat) :
    ∀ (cs : List SEntry) (st : SessState) (cur : Int) (comp evic : Nat),
      ∀ x ∈ (candLoop ext mt cs st cur comp evic).1.entries,
        ∃ e0 ∈ st.entries, x.importance = e0.importance
  | [], st, cur, comp, evic => fun x hx => ⟨x, hx, rfl⟩
  | c :: rest, st, cur, comp, evic => fun x hx => by
    simp only [candLoop] at hx
    split at hx
    · exact ⟨x, hx, rfl⟩
    · split at hx
      · obtain ⟨e0, he0, hi⟩ := candLoop_importance ext mt rest (candDelete st c.id)
          (cur - (c.tokens : Int)) comp (evic + 1) x hx
        exact ⟨e0, (List.filter_sublist st.entries).subset he0, hi⟩
      · obtain ⟨e0, he0, hi⟩ := candLoop_importance ext mt rest (candCompress ext st c)
          (cur - ((c.tokens : Int) - (newTokensOf ext c : Int))) (comp + 1) evic x hx
        obtain ⟨y, hy, rfl⟩ := List.mem_map.mp he0
        refine ⟨y, hy, hi.trans ?_⟩
        simp only [compEntry]
        split <;> rfl

/-- One enforcement pass never changes an entry's importance. -/
theorem enforceBudget_importance (ext : Ext) (st : SessState) :
    ∀ x ∈ (enforceBudget ext st).1.entries, ∃ e0 ∈ st.entries, x.importance = e0.importance := by
  intro x hx
  simp only [enforceBudget] at hx
  split at hx
  · exact ⟨x, hx, rfl⟩
  · split at hx
    · simp only [evictOldest] at hx
      exact ⟨x, (evictLoop_spec st.maxTokens st.entries _ 0).1.subset hx, rfl⟩
    · exact candLoop_importance ext st.maxTokens _ st _ 0 0 x hx

/-- The enforcement fixpoint never changes an entry's importance. -/
theorem enforceLoop_importance (ext : Ext) :
    ∀ (fuel : Nat) (st : SessState) (c e : Nat),
      ∀ x ∈ (enforceLoop ext fuel st c e).state.entries,
        ∃ e0 ∈ st.entries, x.importance = e0.importance
  | 0, st, c, e => fun x hx => ⟨x, hx, rfl⟩
  | fuel + 1, st, c, e => fun x hx => by
    simp only [enforceLoop] at hx
    split at hx
    · exact enforceBudget_importance ext st x hx
    · obtain ⟨e1, he1, h1⟩ := enforceLoop_importance ext fuel (enforceBudget ext st).1
        (c + (enforceBudget ext st).2.1) (e + (enforceBudget ext st).2.2) x hx
      obtain ⟨e0, he0, h0⟩ := enforceBudget_importance ext st e1 he1
      exact ⟨e0, he0, h1.trans h0⟩

/-- C9 (amended): every entry stored by `Push` carries a positive
importance — an entry pushed with importance ≤ 0 is stored with 0.5,
every other entry verbatim — but there is no upper clamp, so stored
importance is not bounded by 1.  Formally: after a successful push,
every entry's importance either already occurred in the session or is
the normalisation of a pushed importance, and normalisation always
yields a positive value. -/
theorem push_importance_provenance (ext : Ext) (st : SessState) (req : List PushEntryM)
    (st' : SessState) (res : PushRes) (h : push ext st req = PushOut.ok st' res) :
    (∀ x ∈ st'.entries,
      (∃ e0 ∈ st.entries, x.importance = e0.importance) ∨
      ∃ pe ∈ req, x.importance = normImp pe.importance) ∧
    ∀ q : ℚ, 0 < normImp q := by
  refine ⟨?_, normImp_pos⟩
  simp only [push] at h
  cases hins : insertLoop ext st (st.entries.foldl (fun m e => max m e.seq) 0) 0 0 req with
  | over st1 =>
    rw [hins] at h
    exact PushOut.noConfusion h
  | ok st1 ms acc ded =>
    rw [hins] at h
    cases h
    intro x hx
    obtain ⟨e1, he1, h1⟩ := enforceLoop_importance ext (mu st1 + 1) st1 0 0 x hx
    have he1' : e1 ∈ (insertLoop ext st (st.entries.foldl (fun m e => max m e.seq) 0)
        0 0 req).stateOf.entries := by
      rw [hins]
      exact he1
    rcases insertLoop_importance ext req st _ 0 0 e1 he1' with h2 | ⟨pe, hpe, h2⟩
    · exact Or.inl ⟨e1, h2, h1⟩
    · exact Or.inr ⟨pe, hpe, h1.trans h2⟩

/-- Session used by the C9 counterexample and witness. -/
def c9st : SessState :=
  { maxTokens := 100, dedupThreshold := 0, preserveRecent := 1, entries := [], nextId := 0 }

/-- Request of the C9 counterexample: importance 2 is positive, so it is
stored verbatim. -/
def c9req : List PushEntryM :=
  [{ role := [], content := [104, 105], source := [], embedding := [], importance := 2 }]

/-- State after the C9 push: importance 2 was stored unclamped. -/
def c9out : SessState :=
  { maxTokens := 100
    dedupThreshold := 0
    preserveRecent := 1
    entries := [{
      id := 0
      role := []
      content := [104, 105]
      originalContent := [104, 105]
      source := []
      embedding := []
      importance := 2
      level := 0
      tokens := 1
      seq := 1 }]
    nextId := 1 }

/-- Result of the C9 push. -/
def c9res : PushRes :=
  { accepted := 1, deduplicated := 0, compressed := 0, evicted := 0,
    currentTokens := 1, budgetRemaining := 99 }

/-- Counterexample to C9 as stated: pushing importance 2 stores
importance 2, which exceeds 1 — the claimed upper bound does not hold. -/
theorem push_importance_cex :
    push extW c9st c9req = PushOut.ok c9out c9res ∧
    ∃ x ∈ c9out.entries, ¬ (x.importance ≤ 1) := by
  refine ⟨by rfl, ⟨_, List.mem_cons_self _ _, ?_⟩⟩
  decide

/-- Witness for the amended C9 theorem at the concrete input. -/
theorem push_importance_provenance_witness :
    (∀ x ∈ c9out.entries,
      (∃ e0 ∈ c9st.entries, x.importance = e0.importance) ∨
      ∃ pe ∈ c9req, x.importance = normImp pe.importance) ∧
    ∀ q : ℚ, 0 < normImp q :=
  push_importance_provenance extW c9st c9req c9out c9res (by rfl)

/-!
C3: processing order of budget-enforcement candidates.  The spec asks
for importance ascending with ties kept in `seq` order (older first);
`sortCandidates` uses Go's `sort.Slice`, which is pdqsort and not
stable, so equal-importance candidates can be processed out of `seq`
order.
-/

/-- Candidate entry with the given importance and sequence number (the
remaining columns do not influence the sort). -/
def mkCand (imp : ℚ) (sq : Nat) : SEntry :=
  { id := sq, role := [], content := [], originalContent := [], source := [],
    embedding := [], importance := imp, level := 0, tokens := 1, seq := sq }

/-- Thirteen candidates in `seq` order, eight of them tied at
importance 5 — large enough that `sort.Slice` leaves insertion sort. -/
def c3cands : List SEntry :=
  [mkCand 5 1, mkCand 5 2, mkCand 3 3, mkCand 5 4, mkCand 2 5, mkCand 5 6,
   mkCand 9 7, mkCand 5 8, mkCand 1 9, mkCand 5 10, mkCand 7 11, mkCand 5 12,
   mkCand 4 13]

/-- Claim-side insertion step: place `c` before the first element whose
importance is not smaller, so equal importances keep their original
relative order. -/
def claimInsert (c : SEntry) : List SEntry → List SEntry
  | [] => [c]
  | x :: xs => if x.importance < c.importance then x :: claimInsert c xs else c :: x :: xs

/-- Claim-side candidate order (modelled from the spec's words, for
comparison only): stable sort by importance ascending, ties keeping the
input (`seq`) order. -/
def claimOrder (cands : List SEntry) : List SEntry := cands.foldr claimInsert []

/-- Adjacent check that a candidate list is in the order the spec
demands: importance strictly ascending, or tied with `seq` ascending. -/
def lexOK : List SEntry → Bool
  | [] => true
  | [_] => true
  | a :: b :: r =>
    (decide (a.importance < b.importance) ||
      (decide (a.importance = b.importance) && decide (a.seq < b.seq))) && lexOK (b :: r)

/-- C3: counterexample.  On thirteen candidates given in `seq` order
with eight importance ties, the order produced by `sortCandidates`
(Go's unstable `sort.Slice`) differs from the spec's
ties-keep-seq-order sort and places some equal-importance pair with the
younger entry first, so the budget-enforcement pass of `Push` does not
process older tied candidates first. -/
theorem sortCandidates_unstable_cex :
    c3cands.map (fun e => e.seq) = [1, 2, 3, 4, 5, 6, 7, 8, 9, 10, 11, 12, 13] ∧
    lexOK (claimOrder c3cands) = true ∧
    lexOK (sortCandidates c3cands) = false ∧
    sortCandidates c3cands ≠ claimOrder c3cands := by
  decide

/-!
C4: the `compression_savings` statistic of `Context`.  The SQL aggregate
divides once after summing (`SUM(LENGTH(original_content)+3)/4`) instead
of summing per-entry estimates, and the code subtracts the token count
of the entries actually returned (after the role filter and the
`max_tokens` truncation), not the token sum of the full session.
-/

/-- Savings value the claim's words prescribe: the sum over the full,
unfiltered session of per-entry `estimate(original_content)`, minus the
sum over the full session of `tokens` (modelled from the spec's words,
for comparison only). -/
def specSavings (st : SessState) : Int :=
  ((st.entries.map (fun e => estimateTokens e.originalContent)).sum : Int)
    - (sumTokens st.entries : Int)

/-- The running counter of the `Context` walk equals its start plus the
tokens of the included entries. -/
theorem contextWalk_tokenCount (maxT : Int) :
    ∀ (l : List SEntry) (tc : Nat),
      (contextWalk maxT l tc).2 = tc + sumTokens (contextWalk maxT l tc).1
  | [], tc => by simp [contextWalk, sumTokens]
  | r :: rest, tc => by
    simp only [contextWalk]
    split
    · simp [sumTokens]
    · have ih := contextWalk_tokenCount maxT rest (tc + r.tokens)
      simp only [sumTokens, List.map_cons, List.sum_cons] at ih ⊢
      omega

/-- C4 (amended): the token count returned by `Context` is the token sum
of the entries it returns, and `compression_savings` equals the SQL
aggregate `⌊(Σ over the full session of byte_len(original_content)+3)/4⌋`
minus the token sum of the returned (role-filtered, possibly truncated)
entries — not the per-entry estimate sum minus the full-session token
sum that the claim states. -/
theorem context_savings_amended (st : SessState) (role : Option Bytes) (maxT : Int) :
    (contextRun st role maxT).tokenCount = sumTokens (contextRun st role maxT).entries ∧
    (contextRun st role maxT).savings
      = ((((st.entries.map (fun e => e.originalContent.length + 3)).sum) / 4 : Nat) : Int)
        - (sumTokens (contextRun st role maxT).entries : Int) := by
  have h1 : (contextRun st role maxT).tokenCount
      = sumTokens (contextRun st role maxT).entries := by
    cases role with
    | none => simpa [contextRun] using contextWalk_tokenCount maxT st.entries 0
    | some ro =>
      simpa [contextRun] using
        contextWalk_tokenCount maxT (st.entries.filter (fun e => e.role = ro)) 0
  refine ⟨h1, ?_⟩
  have h2 : (contextRun st role maxT).savings
      = ((((st.entries.map (fun e => e.originalContent.length + 3)).sum) / 4 : Nat) : Int)
        - ((contextRun st role maxT).tokenCount : Int) := by
    cases role <;> rfl
  rw [h2, h1]

/-- Entry of the C4 counterexample session: two bytes of content, one
estimated token, never compressed. -/
def c4entry (i : Nat) : SEntry :=
  { id := i, role := [117], content := [97, 98], originalContent := [97, 98], source := [],
    embedding := [], importance := 1, level := 0, tokens := 1, seq := i + 1 }

/-- Session of the C4 counterexample: four uncompressed two-byte
entries, so true savings are zero. -/
def c4st : SessState :=
  { maxTokens := 100, dedupThreshold := 0, preserveRecent := 2,
    entries := [c4entry 0, c4entry 1, c4entry 2, c4entry 3], nextId := 4 }

/-- Counterexample to C4 as stated: on a session with zero real
compression savings the claim's formula gives 0, but `Context` reports 1
(the division happens after the SQL `SUM`), and with `max_tokens = 2`
truncating the walk it reports 3 (the subtrahend is only the returned
entries' tokens). -/
theorem context_savings_cex :
    specSavings c4st = 0 ∧
    (contextRun c4st none 0).savings = 1 ∧
    (contextRun c4st none 2).savings = 3 := by
  refine ⟨by decide, by rfl, by rfl⟩

/-!
C8: the LevelSentence compressor.  The terminator scan matches the
claim, but the truncation path scans indices 50 down to 1 for the space
byte only (not general whitespace), and the hard cut also trims and
appends the ellipsis.
-/

/-- `findTerm` returns the least terminator index, within bounds. -/
theorem findTerm_some_spec :
    ∀ (text : Bytes) (i : Nat), findTerm text = some i →
      i < text.length ∧ isTerm (text.getD i 0) = true ∧
      ∀ j, j < i → isTerm (text.getD j 0) = false
  | [], i => by simp [findTerm]
  | b :: rest, i => by
    simp only [findTerm]
    split
    · intro h
      cases h
      refine ⟨Nat.succ_pos _, by simpa, fun j hj => absurd hj (Nat.not_lt_zero j)⟩
    · intro h
      rcases Option.map_eq_some'.mp h with ⟨i', hi', rfl⟩
      obtain ⟨hlt, hterm, hleast⟩ := findTerm_some_spec rest i' hi'
      refine ⟨Nat.succ_lt_succ hlt, by simpa using hterm, ?_⟩
      intro j hj
      cases j with
      | zero => simpa using (by assumption : ¬ isTerm b = true)
      | succ j' => simpa using hleast j' (Nat.lt_of_succ_lt_succ hj)

/-- When `findTerm` fails there is no terminator anywhere. -/
theorem findTerm_none_spec :
    ∀ (text : Bytes), findTerm text = none →
      ∀ j, j < text.length → isTerm (text.getD j 0) = false
  | [], _ => by simp
  | b :: rest, h => by
    simp only [findTerm] at h
    split at h
    · exact absurd h (by simp)
    · intro j hj
      cases j with
      | zero => simpa using (by assumption : ¬ isTerm b = true)
      | succ j' =>
        have := findTerm_none_spec rest (by simpa using h) j'
          (Nat.lt_of_succ_lt_succ hj)
        simpa using this

/-- The countdown cut loop stops at the greatest index in `[1, n]`
holding the space byte, or at 0 when there is none (only the space byte
0x20 is examined, nothing below index 1). -/
theorem cutLoop_spec (text : Bytes) :
    ∀ n : Nat,
      (cutLoop text n = 0 ∧ ∀ c, 1 ≤ c → c ≤ n → text.getD c 0 ≠ 32) ∨
      (1 ≤ cutLoop text n ∧ cutLoop text n ≤ n ∧ text.getD (cutLoop text n) 0 = 32 ∧
        ∀ j, cutLoop text n < j → j ≤ n → text.getD j 0 ≠ 32)
  | 0 => Or.inl ⟨rfl, fun c h1 h2 => absurd (Nat.le_trans h1 h2) (by omega)⟩
  | n + 1 => by
    simp only [cutLoop]
    split
    · next heq =>
      exact Or.inr ⟨Nat.succ_le_succ (Nat.zero_le n), Nat.le_refl _, heq,
        fun j h1 h2 => absurd (Nat.lt_of_lt_of_le h1 h2) (Nat.lt_irrefl _)⟩
    · next hne =>
      rcases cutLoop_spec text n with ⟨h0, hall⟩ | ⟨h1, h2, h3, h4⟩
      · refine Or.inl ⟨h0, fun c hc1 hc2 => ?_⟩
        rcases Nat.lt_or_ge c (n + 1) with h | h
        · exact hall c hc1 (Nat.lt_succ_iff.mp h)
        · have : c = n + 1 := Nat.le_antisymm hc2 h
          simpa [this] using hne
      · refine Or.inr ⟨h1, Nat.le_succ_of_le h2, h3, fun j hj1 hj2 => ?_⟩
        rcases Nat.lt_or_ge j (n + 1) with h | h
        · exact h4 j hj1 (Nat.lt_succ_iff.mp h)
        · have : j = n + 1 := Nat.le_antisymm hj2 h
          simpa [this] using hne

/-- C8 (amended): the LevelSentence compressor returns the prefix up to
and including the first `.`/`!`/`?`; with no terminator and at most 50
bytes it returns the text unchanged; with no terminator and more than 50
bytes it scans indices 50 down to 1 (the 51st byte included, index 0
never examined) for the space byte 0x20 only — not general whitespace —
cuts there, or at byte 50 when no space is found, and in both cases
trims surrounding white space and appends `"..."` (also after the hard
cut). -/
theorem sentenceLevel_amended (text : Bytes) :
    (∀ i, findTerm text = some i →
      i < text.length ∧ isTerm (text.getD i 0) = true ∧
      (∀ j, j < i → isTerm (text.getD j 0) = false) ∧
      sentenceLevel text = text.take (i + 1)) ∧
    (findTerm text = none →
      (∀ j, j < text.length → isTerm (text.getD j 0) = false) ∧
      (text.length ≤ 50 → sentenceLevel text = text) ∧
      (50 < text.length →
        ((∀ c, 1 ≤ c → c ≤ 50 → text.getD c 0 ≠ 32) ∧
            sentenceLevel text = trimSpace (text.take 50) ++ ellipsis) ∨
        (∃ c, 1 ≤ c ∧ c ≤ 50 ∧ text.getD c 0 = 32 ∧
            (∀ j, c < j → j ≤ 50 → text.getD j 0 ≠ 32) ∧
            sentenceLevel text = trimSpace (text.take c) ++ ellipsis))) := by
  constructor
  · intro i h
    obtain ⟨hlt, hterm, hleast⟩ := findTerm_some_spec text i h
    exact ⟨hlt, hterm, hleast, by simp [sentenceLevel, h]⟩
  · intro h
    refine ⟨findTerm_none_spec text h, ?_, ?_⟩
    · intro hle
      simp [sentenceLevel, h, Nat.not_lt.mpr hle]
    · intro hgt
      rcases cutLoop_spec text 50 with ⟨h0, hall⟩ | ⟨h1, h2, h3, h4⟩
      · exact Or.inl ⟨hall, by simp [sentenceLevel, h, hgt, h0]⟩
      · refine Or.inr ⟨cutLoop text 50, h1, h2, h3, h4, ?_⟩
        have hne : cutLoop text 50 ≠ 0 := by omega
        simp [sentenceLevel, h, hgt, hne]

/-- Last whitespace index within the first 50 bytes (claim-side notion:
any ASCII white-space byte, indices 0 through 49). -/
def lastWs (text : Bytes) : Option Nat :=
  ((List.range (min 50 text.length)).filter (fun i => asciiSpace (text.getD i 0))).getLast?

/-- LevelSentence behaviour the claim's words prescribe (modelled from
the spec's words, for comparison only): prefix through the first
terminator; else truncate at the last whitespace boundary within the
first 50 bytes and append `"..."`; else hard-cut at byte 50. -/
def claimedSentence (text : Bytes) : Bytes :=
  match findTerm text with
  | some i => text.take (i + 1)
  | none =>
    match lastWs text with
    | some c => text.take c ++ ellipsis
    | none => text.take 50

/-- C8 counterexample input: 20 `a` bytes, one TAB, 39 more `a` bytes —
60 bytes, no terminator, whitespace only at index 20 and no space
byte. -/
def c8tab : Bytes := List.replicate 20 97 ++ [9] ++ List.replicate 39 97

/-- Second C8 counterexample input: 60 `a` bytes, no terminator and no
whitespace at all. -/
def c8hard : Bytes := List.replicate 60 97

/-- Counterexample to C8 as stated: on a 60-byte input whose only
whitespace is a TAB at index 20 the claim truncates there, but the code
scans for the space byte only, finds none, and hard-cuts at 50 with an
appended ellipsis; and on a 60-byte input with no whitespace the claim
hard-cuts to exactly the first 50 bytes while the code also appends
`"..."`. -/
theorem sentenceLevel_cex :
    sentenceLevel c8tab ≠ claimedSentence c8tab ∧
    claimedSentence c8tab = List.replicate 20 97 ++ ellipsis ∧
    sentenceLevel c8tab = (List.replicate 20 97 ++ [9] ++ List.replicate 29 97) ++ ellipsis ∧
    sentenceLevel c8hard = List.replicate 50 97 ++ ellipsis ∧
    claimedSentence c8hard = List.replicate 50 97 := by
  refine ⟨by decide, by decide, by decide, by decide, by decide⟩

/-- Witness for the amended C8 theorem: the no-terminator branch at the
concrete 60-byte input. -/
theorem sentenceLevel_amended_witness :
    (∀ j, j < c8tab.length → isTerm (c8tab.getD j 0) = false) ∧
    (c8tab.length ≤ 50 → sentenceLevel c8tab = c8tab) ∧
    (50 < c8tab.length →
      ((∀ c, 1 ≤ c → c ≤ 50 → c8tab.getD c 0 ≠ 32) ∧
          sentenceLevel c8tab = trimSpace (c8tab.take 50) ++ ellipsis) ∨
      (∃ c, 1 ≤ c ∧ c ≤ 50 ∧ c8tab.getD c 0 = 32 ∧
          (∀ j, c < j → j ≤ 50 → c8tab.getD j 0 ≠ 32) ∧
          sentenceLevel c8tab = trimSpace (c8tab.take c) ++ ellipsis)) :=
  (sentenceLevel_amended c8tab).2 (by decide)

/-!
Memory store (`pkg/memory/sqlite.go`, `pkg/memory/helpers.go`).  The
`memories` table is modelled as a list in rowid (insertion) order, which
is the order the unordered `SELECT`s of the code return rows in; the
`memory_tags` junction table as a list of (memory id, tag) pairs.
Timestamps (`created_at`, `last_referenced`) are exact rationals
measured in hours, abstracting the RFC3339Nano strings the code stores
and compares. -/

/-- Row of `memories`. -/
structure MemEntry where
  id : Nat
  text : Bytes
  embedding : List ℚ
  source : Bytes
  sessionId : Bytes
  decay : Nat
  createdAt : ℚ
  lastRef : ℚ
  accessCount : Nat
deriving DecidableEq, Repr, Inhabited

/-- Memory store state: rows, tag junction rows, the fresh-id counter and
the store-level dedup threshold (`cfg.DedupThreshold`). -/
structure MemState where
  mems : List MemEntry
  tags : List (Nat × Bytes)
  nextId : Nat
  dedupThreshold : ℚ
deriving DecidableEq, Repr

/-- Primary-key invariant of the memory table: ids are below the counter
and strictly increase in rowid order (so recall candidates appear in
insertion order). -/
def MemInv (st : MemState) : Prop :=
  (∀ m ∈ st.mems, m.id < st.nextId) ∧
  st.mems.Pairwise (fun a b => a.id < b.id)

/-- Translation of `findDuplicate`: id of the first row whose non-empty
embedding is strictly within the threshold, if any. -/
def findDuplicate (ext : Ext) (st : MemState) (emb : List ℚ) : Option Nat :=
  (st.mems.find? fun m =>
    m.embedding ≠ [] && decide (ext.dist emb m.embedding < st.dedupThreshold)).map (·.id)

/-- One entry of a `StoreRequest`. -/
structure StoreEntryM where
  text : Bytes
  embedding : List ℚ
  source : Bytes
  tags : List Bytes
deriving DecidableEq, Repr, Inhabited

/-- Running counters of a `Store` call. -/
structure StoreCounters where
  stored : Nat
  deduplicated : Nat
deriving DecidableEq, Repr

/-- Tag insertion (`INSERT OR IGNORE INTO memory_tags`): duplicates of the
composite primary key are dropped. -/
def insertTags (mid : Nat) (tl : List (Nat × Bytes)) : List Bytes → List (Nat × Bytes)
  | [] => tl
  | t :: ts => insertTags mid (if tl.contains (mid, t) then tl else tl ++ [(mid, t)]) ts

/-- Translation of the entry loop body of `Store`: skip empty text; on a
duplicate touch the found row (`last_referenced = now`,
`access_count += 1`); otherwise insert a fresh row at decay level Full
with its tags. -/
def storeEntryStep (ext : Ext) (now : ℚ) (sessionId : Bytes)
    (st : MemState) (cnt : StoreCounters) (e : StoreEntryM) : MemState × StoreCounters :=
  if e.text = [] then (st, cnt)
  else
    match if e.embedding ≠ [] then findDuplicate ext st e.embedding else none with
    | some dupId =>
      ({ st with mems := st.mems.map fun m =>
          if m.id = dupId then { m with lastRef := now, accessCount := m.accessCount + 1 }
          else m },
       { cnt with deduplicated := cnt.deduplicated + 1 })
    | none =>
      let ne : MemEntry :=
        { id := st.nextId, text := e.text, embedding := e.embedding, source := e.source,
          sessionId := sessionId, decay := 0, createdAt := now, lastRef := now,
          accessCount := 0 }
      ({ st with
          mems := st.mems ++ [ne],
          tags := insertTags st.nextId st.tags e.tags,
          nextId := st.nextId + 1 },
       { cnt with stored := cnt.stored + 1 })

/-- Result of a `Store` call. -/
structure StoreRes where
  stored : Nat
  deduplicated : Nat
  totalMemories : Nat
deriving DecidableEq, Repr

/-- Translation of `Store`: process the entries in order, then report the
total row count. -/
def store (ext : Ext) (now : ℚ) (sessionId : Bytes) (st : MemState)
    (entries : List StoreEntryM) : MemState × StoreRes :=
  let p := entries.foldl (fun q e => storeEntryStep ext now sessionId q.1 q.2 e)
    (st, { stored := 0, deduplicated := 0 })
  (p.1, { stored := p.2.stored, deduplicated := p.2.deduplicated,
          totalMemories := p.1.mems.length })

/-- Recall request (`query` is only consulted for the emptiness check). -/
structure RecallReq where
  query : Bytes
  queryEmbedding : List ℚ
  tags : List Bytes
  maxResults : Int
  recencyWeight : ℚ
  maxTokens : Int
deriving Repr

/-- Candidate rows of `Recall`: all rows, or rows carrying at least one
of the requested tags (OR semantics of the `IN` subquery). -/
def recallRows (st : MemState) (reqTags : List Bytes) : List MemEntry :=
  if reqTags = [] then st.mems
  else st.mems.filter fun m => st.tags.any fun t => t.1 = m.id && reqTags.contains t.2

/-- Candidate scoring of `Recall`: similarity from the embeddings when
both are present, recency with a 24-hour half-time from the age in
hours, combined with the already-clamped recency weight `w`. -/
def scoreRow (ext : Ext) (w : ℚ) (now : ℚ) (qEmb : List ℚ) (m : MemEntry) : ℚ :=
  let similarity : ℚ :=
    if qEmb ≠ [] ∧ m.embedding ≠ [] then 1 - ext.dist qEmb m.embedding else 0
  let age := now - m.lastRef
  let recency : ℚ := if 0 < age then 1 / (1 + age / 24) else 1
  (1 - w) * similarity + w * recency

/-- Scored candidate (`scored` struct of the code). -/
structure Scored where
  memory : MemEntry
  relevance : ℚ
deriving DecidableEq, Repr, Inhabited

/-- Insertion step of `sortByRelevance`: the key moves left past entries
of strictly smaller relevance and lands after every entry of greater or
equal relevance — the textbook stable insertion into a descending list,
matching the shift loop `for j >= 0 && candidates[j].relevance <
key.relevance` of the code. -/
def insertDesc (x : Scored) : List Scored → List Scored
  | [] => [x]
  | y :: ys => if y.relevance < x.relevance then x :: y :: ys else y :: insertDesc x ys

/-- Translation of `sortByRelevance`: in-place insertion sort processing
indices 1..n-1 left to right, i.e. a left fold of `insertDesc`. -/
def sortByRelevance (l : List Scored) : List Scored :=
  l.foldl (fun acc x => insertDesc x acc) []

/-- Result walk of `Recall`: take sorted candidates while under
`maxResults` and, when `req.MaxTokens > 0`, under the token budget. -/
def recallWalk (maxResults : Nat) (maxT : Int) :
    List Scored → List MemEntry → Nat → List MemEntry × Nat
  | [], acc, tc => (acc.reverse, tc)
  | c :: rest, acc, tc =>
    if maxResults ≤ acc.length then (acc.reverse, tc)
    else
      let tokens := estimateTokens c.memory.text
      if 0 < maxT ∧ maxT < (tc : Int) + (tokens : Int) then (acc.reverse, tc)
      else recallWalk maxResults maxT rest (c.memory :: acc) (tc + tokens)

/-- Translation of `touchMemories`: batch update of `last_referenced` and
`access_count` for the returned ids. -/
def touchMemories (now : ℚ) (ids : List Nat) (st : MemState) : MemState :=
  { st with mems := st.mems.map fun m =>
      if ids.contains m.id then { m with lastRef := now, accessCount := m.accessCount + 1 }
      else m }

/-- Result of a `Recall` call. -/
structure RecallRes where
  memories : List MemEntry
  candidates : Nat
  returned : Nat
  tokenCount : Nat
deriving Repr

/-- Clamp of `recency_weight` performed by `Recall`: first the lower
bound 0, then the upper bound 1, as the two `if`s of the code do. -/
def clamp01 (q : ℚ) : ℚ :=
  let w0 := if q < 0 then 0 else q
  if 1 < w0 then 1 else w0

/-- Scored candidate list of `Recall`: the candidate rows in table
(insertion) order, each scored with the clamped weight. -/
def recallCands (ext : Ext) (now : ℚ) (st : MemState) (req : RecallReq) : List Scored :=
  (recallRows st req.tags).map fun m =>
    { memory := m, relevance := scoreRow ext (clamp01 req.recencyWeight) now req.queryEmbedding m }

/-- Translation of `Recall` (the `ErrInvalidQuery` guard is the `none`
case).  Clamping of `recency_weight` happens once, before scoring, as in
the code. -/
def recallOp (ext : Ext) (now : ℚ) (st : MemState) (req : RecallReq) :
    Option (MemState × RecallRes) :=
  if req.query = [] ∧ req.queryEmbedding = [] then none
  else
    let maxResults : Nat := if req.maxResults ≤ 0 then 10 else req.maxResults.toNat
    let candidates := recallCands ext now st req
    let sorted := sortByRelevance candidates
    let p := recallWalk maxResults req.maxTokens sorted [] 0
    let st := if p.1 = [] then st else touchMemories now (p.1.map (·.id)) st
    some (st, { memories := p.1, candidates := candidates.length,
                returned := p.1.length, tokenCount := p.2 })

/-!
Decay worker (`pkg/memory/helpers.go`).  One pass (`runOnce`) performs,
in order: eviction of terminal rows past `EvictAge`, promotion
Summary→Keywords past `KeywordsAge`, promotion Full→Summary past
`SummaryAge`; each phase is guarded by its age being configured
positive.  `decayRows` reads the matching rows and rewrites each by id;
under the primary-key invariant this is the pointwise map below.
Deleting a memory cascades to its junction rows.
-/

/-- Decay configuration (ages in hours; a non-positive age disables the
phase). -/
structure DecayCfg where
  evictAge : ℚ
  keywordsAge : ℚ
  summaryAge : ℚ
deriving Repr

/-- Translation of `decayRows`: rows at `fromLevel` last referenced
before the cutoff are rewritten by the transform and moved to
`toLevel`. -/
def decayRows (cutoff : ℚ) (fromLevel toLevel : Nat) (transform : Bytes → Bytes)
    (st : MemState) : MemState :=
  { st with mems := st.mems.map fun m =>
      if m.lastRef < cutoff ∧ m.decay = fromLevel then
        { m with text := transform m.text, decay := toLevel }
      else m }

/-- Summary transform of the decay worker (`extractSummary`): the
extractive compressor's output, or the text unchanged when empty. -/
def extractSummary (ext : Ext) (text : Bytes) : Bytes := summaryOf ext text

/-- Eviction phase of `runOnce`: delete rows at the terminal decay level
last referenced before `now - EvictAge` (cascading to their junction
rows); disabled for a non-positive age. -/
def evictPhase (cfg : DecayCfg) (now : ℚ) (st : MemState) : MemState :=
  if 0 < cfg.evictAge then
    let keep := st.mems.filter fun m => ¬ (m.lastRef < now - cfg.evictAge ∧ 2 ≤ m.decay)
    { st with mems := keep, tags := st.tags.filter fun t => keep.any (fun m => m.id = t.1) }
  else st

/-- Summary→Keywords phase of `runOnce`. -/
def kwPhase (cfg : DecayCfg) (now : ℚ) (st : MemState) : MemState :=
  if 0 < cfg.keywordsAge then
    decayRows (now - cfg.keywordsAge) 1 2 (extractKeywordsCap 20) st
  else st

/-- Full→Summary phase of `runOnce`. -/
def sumPhase (ext : Ext) (cfg : DecayCfg) (now : ℚ) (st : MemState) : MemState :=
  if 0 < cfg.summaryAge then
    decayRows (now - cfg.summaryAge) 0 1 (extractSummary ext) st
  else st

/-- Translation of `runOnce`: evict, then Summary→Keywords, then
Full→Summary. -/
def runOnce (ext : Ext) (cfg : DecayCfg) (now : ℚ) (st : MemState) : MemState :=
  sumPhase ext cfg now (kwPhase cfg now (evictPhase cfg now st))

/-!
C5: `Recall` scoring and ranking.  The insertion sort of
`sortByRelevance` shifts the key left only past strictly smaller
relevances, so it is stable; the lemmas below establish sortedness,
permutation and stability (the order within every tie class is
preserved), and that the returned memories are a prefix of the sorted
candidates.
-/

/-- The clamped recency weight lies in `[0, 1]` and is the identity
there. -/
theorem clamp01_mem (q : ℚ) :
    0 ≤ clamp01 q ∧ clamp01 q ≤ 1 ∧ (0 ≤ q → q ≤ 1 → clamp01 q = q) := by
  simp only [clamp01]
  by_cases h1 : q < 0
  · rw [if_pos h1, if_neg (by norm_num : ¬ (1:ℚ) < 0)]
    exact ⟨le_refl 0, by norm_num, fun h0 _ => absurd h1 (not_lt.mpr h0)⟩
  · rw [if_neg h1]
    by_cases h2 : 1 < q
    · rw [if_pos h2]
      exact ⟨by norm_num, le_refl 1, fun _ h1' => absurd h2 (not_lt.mpr h1')⟩
    · rw [if_neg h2]
      exact ⟨le_of_not_lt h1, le_of_not_lt h2, fun _ _ => rfl⟩

/-- `insertDesc` permutes a cons. -/
theorem insertDesc_perm (x : Scored) :
    ∀ l : List Scored, List.Perm (insertDesc x l) (x :: l)
  | [] => List.Perm.refl _
  | y :: ys => by
    simp only [insertDesc]
    split
    · exact List.Perm.refl _
    · exact ((insertDesc_perm x ys).cons y).trans (List.Perm.swap x y ys)

/-- `insertDesc` preserves descending order. -/
theorem insertDesc_sorted (x : Scored) :
    ∀ l : List Scored, l.Pairwise (fun a b => b.relevance ≤ a.relevance) →
      (insertDesc x l).Pairwise (fun a b => b.relevance ≤ a.relevance)
  | [], _ => by simp [insertDesc]
  | y :: ys, h => by
    simp only [insertDesc]
    rcases List.pairwise_cons.mp h with ⟨hy, hys⟩
    split
    · next hlt =>
      refine List.pairwise_cons.mpr ⟨?_, h⟩
      intro z hz
      rcases hz with _ | hz'
      · exact le_of_lt hlt
      · exact le_trans (hy z (by assumption)) (le_of_lt hlt)
    · next hnlt =>
      refine List.pairwise_cons.mpr ⟨?_, insertDesc_sorted x ys hys⟩
      intro z hz
      rcases List.mem_cons.mp ((insertDesc_perm x ys).mem_iff.mp hz) with rfl | hz'
      · exact not_lt.mp hnlt
      · exact hy z hz'

/-- Stability of one insertion step: the tie class of any relevance
value is preserved, with the key appended at its end. -/
theorem insertDesc_filter (q : ℚ) (x : Scored) :
    ∀ l : List Scored, l.Pairwise (fun a b => b.relevance ≤ a.relevance) →
      (insertDesc x l).filter (fun z => decide (z.relevance = q))
        = if x.relevance = q
          then l.filter (fun z => decide (z.relevance = q)) ++ [x]
          else l.filter (fun z => decide (z.relevance = q))
  | [], _ => by
    by_cases hx : x.relevance = q <;> simp [insertDesc, hx]
  | y :: ys, h => by
    simp only [insertDesc]
    rcases List.pairwise_cons.mp h with ⟨hy, hys⟩
    split
    · next hlt =>
      by_cases hx : x.relevance = q
      · have hnil : (y :: ys).filter (fun z => decide (z.relevance = q)) = [] := by
          rw [List.filter_eq_nil_iff]
          intro z hz
          have hzlt : z.relevance < q := by
            rcases hz with _ | hz'
            · exact hx ▸ hlt
            · exact lt_of_le_of_lt (hy z (by assumption)) (hx ▸ hlt)
          simp [ne_of_lt hzlt]
        simp [List.filter_cons, hx, hnil]
      · simp [List.filter_cons, hx]
    · next hnlt =>
      have ih := insertDesc_filter q x ys hys
      by_cases hy' : y.relevance = q <;> by_cases hx : x.relevance = q <;>
        simp [List.filter_cons, hy', hx, ih]

/-- Fold invariant of `sortByRelevance`: starting from a sorted
accumulator, the fold stays sorted, permutes accumulator plus input,
and appends each tie class in input order. -/
theorem insertFold_spec :
    ∀ (l acc : List Scored), acc.Pairwise (fun a b => b.relevance ≤ a.relevance) →
      (l.foldl (fun a x => insertDesc x a) acc).Pairwise
          (fun a b => b.relevance ≤ a.relevance) ∧
      List.Perm (l.foldl (fun a x => insertDesc x a) acc) (acc ++ l) ∧
      ∀ q : ℚ,
        (l.foldl (fun a x => insertDesc x a) acc).filter (fun z => decide (z.relevance = q))
          = acc.filter (fun z => decide (z.relevance = q))
            ++ l.filter (fun z => decide (z.relevance = q))
  | [], acc, h => ⟨h, by simp, fun q => by simp⟩
  | x :: xs, acc, h => by
    simp only [List.foldl_cons]
    obtain ⟨hs, hp, hf⟩ := insertFold_spec xs (insertDesc x acc) (insertDesc_sorted x acc h)
    refine ⟨hs, ?_, ?_⟩
    · refine hp.trans (((insertDesc_perm x acc).append_right xs).trans ?_)
      exact List.perm_middle.symm
    · intro q
      rw [hf q, insertDesc_filter q x acc h]
      by_cases hx : x.relevance = q <;> simp [List.filter_cons, hx]

/-- The memories returned by the `Recall` walk are an order-preserving
prefix of the sorted candidate list. -/
theorem recallWalk_prefix (maxR : Nat) (maxT : Int) :
    ∀ (l : List Scored) (acc : List MemEntry) (tc : Nat),
      ∃ n, (recallWalk maxR maxT l acc tc).1
        = acc.reverse ++ (l.take n).map (fun c => c.memory)
  | [], acc, tc => ⟨0, by simp [recallWalk]⟩
  | c :: rest, acc, tc => by
    simp only [recallWalk]
    split
    · exact ⟨0, by simp⟩
    · split
      · exact ⟨0, by simp⟩
      · obtain ⟨n, hn⟩ :=
          recallWalk_prefix maxR maxT rest (c.memory :: acc)
            (tc + estimateTokens c.memory.text)
        exact ⟨n + 1, by simpa [List.reverse_cons, List.append_assoc] using hn⟩

/-- C5: for every Recall request the candidate score uses the weight
clamped to `[0, 1]` and equals
`(1 − w)·similarity + w·recency`, with similarity taken from the
embeddings only when both are present and recency `1/(1 + age/24)` for
positive age (else 1); the candidates are sorted by relevance
descending, stably — every tie class retains its table (insertion)
order — and the returned memories are a prefix of that sorted list. -/
theorem recall_relevance_sorted (ext : Ext) (now : ℚ) (st : MemState) (req : RecallReq)
    (st' : MemState) (res : RecallRes)
    (h : recallOp ext now st req = some (st', res)) :
    (0 ≤ clamp01 req.recencyWeight ∧ clamp01 req.recencyWeight ≤ 1 ∧
      (0 ≤ req.recencyWeight → req.recencyWeight ≤ 1 →
        clamp01 req.recencyWeight = req.recencyWeight)) ∧
    (∀ m : MemEntry,
      scoreRow ext (clamp01 req.recencyWeight) now req.queryEmbedding m
        = (1 - clamp01 req.recencyWeight) *
            (if req.queryEmbedding ≠ [] ∧ m.embedding ≠ []
              then 1 - ext.dist req.queryEmbedding m.embedding else 0)
          + clamp01 req.recencyWeight *
            (if 0 < now - m.lastRef then 1 / (1 + (now - m.lastRef) / 24) else 1)) ∧
    List.Perm (sortByRelevance (recallCands ext now st req)) (recallCands ext now st req) ∧
    (sortByRelevance (recallCands ext now st req)).Pairwise
      (fun a b => b.relevance ≤ a.relevance) ∧
    (∀ q : ℚ,
      (sortByRelevance (recallCands ext now st req)).filter
          (fun z => decide (z.relevance = q))
        = (recallCands ext now st req).filter (fun z => decide (z.relevance = q))) ∧
    ∃ n, res.memories
      = ((sortByRelevance (recallCands ext now st req)).take n).map (fun c => c.memory) := by
  obtain ⟨hs, hp, hf⟩ :=
    insertFold_spec (recallCands ext now st req) [] (List.Pairwise.nil)
  refine ⟨?_, fun m => rfl, by simpa [sortByRelevance] using hp,
    by simpa [sortByRelevance] using hs,
    fun q => by simpa [sortByRelevance] using hf q, ?_⟩
  · exact clamp01_mem req.recencyWeight
  · simp only [recallOp] at h
    split at h
    · exact Option.noConfusion h
    · injection h with h2
      injection h2 with h3 h4
      obtain ⟨n, hn⟩ :=
        recallWalk_prefix (if req.maxResults ≤ 0 then 10 else req.maxResults.toNat)
          req.maxTokens (sortByRelevance (recallCands ext now st req)) [] 0
      refine ⟨n, ?_⟩
      rw [← h4]
      simpa using hn

/-- Empty store and a textual query used by the C5 witness. -/
def c5st : MemState := { mems := [], tags := [], nextId := 0, dedupThreshold := 0 }

/-- Request of the C5 witness: a non-empty query, defaults otherwise. -/
def c5req : RecallReq :=
  { query := [113], queryEmbedding := [], tags := [], maxResults := 0,
    recencyWeight := 0, maxTokens := 0 }

/-- Witness for the C5 theorem at the concrete input. -/
theorem recall_relevance_sorted_witness :
    (0 ≤ clamp01 c5req.recencyWeight ∧ clamp01 c5req.recencyWeight ≤ 1 ∧
      (0 ≤ c5req.recencyWeight → c5req.recencyWeight ≤ 1 →
        clamp01 c5req.recencyWeight = c5req.recencyWeight)) ∧
    (∀ m : MemEntry,
      scoreRow extW (clamp01 c5req.recencyWeight) 0 c5req.queryEmbedding m
        = (1 - clamp01 c5req.recencyWeight) *
            (if c5req.queryEmbedding ≠ [] ∧ m.embedding ≠ []
              then 1 - extW.dist c5req.queryEmbedding m.embedding else 0)
          + clamp01 c5req.recencyWeight *
            (if 0 < 0 - m.lastRef then 1 / (1 + (0 - m.lastRef) / 24) else 1)) ∧
    List.Perm (sortByRelevance (recallCands extW 0 c5st c5req)) (recallCands extW 0 c5st c5req) ∧
    (sortByRelevance (recallCands extW 0 c5st c5req)).Pairwise
      (fun a b => b.relevance ≤ a.relevance) ∧
    (∀ q : ℚ,
      (sortByRelevance (recallCands extW 0 c5st c5req)).filter
          (fun z => decide (z.relevance = q))
        = (recallCands extW 0 c5st c5req).filter (fun z => decide (z.relevance = q))) ∧
    ∃ n, ({ memories := [], candidates := 0, returned := 0, tokenCount := 0 } : RecallRes).memories
      = ((sortByRelevance (recallCands extW 0 c5st c5req)).take n).map (fun c => c.memory) :=
  recall_relevance_sorted extW 0 c5st c5req c5st
    { memories := [], candidates := 0, returned := 0, tokenCount := 0 } (by rfl)

/-!
C6: write-time deduplication of `Store`.  A fresh insert into an empty
store followed by a second `Store` of the same entry: the second call
touches the surviving row instead of inserting.
-/

/-- Row inserted by `storeEntryStep` for a non-duplicate entry. -/
def freshMem (now : ℚ) (sid : Bytes) (st : MemState) (e : StoreEntryM) : MemEntry :=
  { id := st.nextId, text := e.text, embedding := e.embedding, source := e.source,
    sessionId := sid, decay := 0, createdAt := now, lastRef := now, accessCount := 0 }

/-- Row rewrite applied to a found duplicate: `last_referenced = now`,
`access_count += 1`. -/
def touchedMem (now : ℚ) (m : MemEntry) : MemEntry :=
  { m with lastRef := now, accessCount := m.accessCount + 1 }

/-- `storeEntryStep` on an empty store inserts a fresh row at decay
level Full. -/
theorem storeEntryStep_fresh (ext : Ext) (now : ℚ) (sid : Bytes) (st : MemState)
    (cnt : StoreCounters) (e : StoreEntryM)
    (hempty : st.mems = []) (htext : e.text ≠ []) :
    storeEntryStep ext now sid st cnt e
      = ({ st with
            mems := st.mems ++ [freshMem now sid st e],
            tags := insertTags st.nextId st.tags e.tags,
            nextId := st.nextId + 1 },
         { cnt with stored := cnt.stored + 1 }) := by
  have hnone : (if e.embedding ≠ [] then findDuplicate ext st e.embedding else none) = none := by
    split
    · simp [findDuplicate, hempty]
    · rfl
  simp only [storeEntryStep]
  rw [if_neg htext, hnone]
  rfl

/-- `storeEntryStep` on a one-row store holding a duplicate touches that
row: `last_referenced` becomes now and `access_count` increments. -/
theorem storeEntryStep_touch (ext : Ext) (now : ℚ) (sid : Bytes) (st : MemState)
    (cnt : StoreCounters) (e : StoreEntryM) (m : MemEntry)
    (hone : st.mems = [m]) (htext : e.text ≠ []) (hemb : e.embedding ≠ [])
    (hmemb : m.embedding ≠ [])
    (hdist : ext.dist e.embedding m.embedding < st.dedupThreshold) :
    storeEntryStep ext now sid st cnt e
      = ({ st with mems := [touchedMem now m] },
         { cnt with deduplicated := cnt.deduplicated + 1 }) := by
  have hfind : findDuplicate ext st e.embedding = some m.id := by
    simp [findDuplicate, hone, List.find?, hmemb, hdist]
  simp only [storeEntryStep]
  rw [if_neg htext, if_pos hemb, hfind, hone]
  simp [touchedMem]

/-- Two stores of the same entry from an empty store: the first call
inserts, the second deduplicates against the row just stored (the
`Store([E]); Store([E])` scenario of the spec). -/
theorem store_twice_empty (ext : Ext) (st0 : MemState) (e : StoreEntryM)
    (sid : Bytes) (now1 now2 : ℚ)
    (hempty : st0.mems = []) (htext : e.text ≠ []) (hemb : e.embedding ≠ [])
    (hdist : ext.dist e.embedding e.embedding < st0.dedupThreshold)
    (hlt : now1 < now2) :
    (store ext now1 sid st0 [e]).2.stored = 1 ∧
    (store ext now1 sid st0 [e]).2.totalMemories = 1 ∧
    (store ext now2 sid (store ext now1 sid st0 [e]).1 [e]).2.deduplicated = 1 ∧
    (store ext now2 sid (store ext now1 sid st0 [e]).1 [e]).2.stored = 0 ∧
    (store ext now2 sid (store ext now1 sid st0 [e]).1 [e]).2.totalMemories = 1 ∧
    ∃ m m',
      (store ext now1 sid st0 [e]).1.mems = [m] ∧
      (store ext now2 sid (store ext now1 sid st0 [e]).1 [e]).1.mems = [m'] ∧
      m'.id = m.id ∧ m.lastRef = now1 ∧ m'.lastRef = now2 ∧
      m.lastRef < m'.lastRef ∧ m'.accessCount = m.accessCount + 1 := by
  have h1 := storeEntryStep_fresh ext now1 sid st0 { stored := 0, deduplicated := 0 } e
    hempty htext
  have hs1 : store ext now1 sid st0 [e]
      = ({ st0 with
            mems := [freshMem now1 sid st0 e],
            tags := insertTags st0.nextId st0.tags e.tags,
            nextId := st0.nextId + 1 },
         { stored := 1, deduplicated := 0, totalMemories := 1 }) := by
    simp only [store, List.foldl]
    rw [h1]
    simp [hempty]
  have h2 := storeEntryStep_touch ext now2 sid
    ({ st0 with
        mems := [freshMem now1 sid st0 e],
        tags := insertTags st0.nextId st0.tags e.tags,
        nextId := st0.nextId + 1 })
    { stored := 0, deduplicated := 0 } e (freshMem now1 sid st0 e)
    rfl htext hemb hemb hdist
  have hs2 : store ext now2 sid
      ({ st0 with
          mems := [freshMem now1 sid st0 e],
          tags := insertTags st0.nextId st0.tags e.tags,
          nextId := st0.nextId + 1 }) [e]
      = ({ st0 with
            mems := [touchedMem now2 (freshMem now1 sid st0 e)],
            tags := insertTags st0.nextId st0.tags e.tags,
            nextId := st0.nextId + 1 },
         { stored := 0, deduplicated := 1, totalMemories := 1 }) := by
    simp only [store, List.foldl]
    rw [h2]
    rfl
  rw [hs1]
  simp only [hs2]
  refine ⟨trivial, trivial, trivial, trivial, trivial, ?_⟩
  exact ⟨freshMem now1 sid st0 e, touchedMem now2 (freshMem now1 sid st0 e),
    rfl, rfl, rfl, rfl, rfl, hlt, rfl⟩

/-- C6: for every Store request entry with non-empty text and a
non-empty embedding whose abstract distance to some existing stored
embedding is strictly below the threshold, the entry loop inserts no
row: the scan finds an existing row `d` within the threshold, the
result keeps the same number of rows, the same fresh-id counter and the
same tag rows, row `d` is rewritten to `last_referenced = now` with
`access_count + 1`, every other row is kept unchanged, and the entry is
counted as deduplicated; and in particular `Store([E]); Store([E])`
from an empty store keeps one row, the second call reporting
`deduplicated = 1` with `last_referenced` strictly increased. -/
theorem store_dedup_spec (ext : Ext) (now : ℚ) (sid : Bytes) (st : MemState)
    (cnt : StoreCounters) (e : StoreEntryM)
    (htext : e.text ≠ []) (hemb : e.embedding ≠ [])
    (hdup : ∃ m ∈ st.mems, m.embedding ≠ [] ∧
      ext.dist e.embedding m.embedding < st.dedupThreshold) :
    (∃ d ∈ st.mems,
      findDuplicate ext st e.embedding = some d.id ∧
      d.embedding ≠ [] ∧ ext.dist e.embedding d.embedding < st.dedupThreshold ∧
      (storeEntryStep ext now sid st cnt e).2
        = { cnt with deduplicated := cnt.deduplicated + 1 } ∧
      (storeEntryStep ext now sid st cnt e).1.mems.length = st.mems.length ∧
      (storeEntryStep ext now sid st cnt e).1.nextId = st.nextId ∧
      (storeEntryStep ext now sid st cnt e).1.tags = st.tags ∧
      touchedMem now d ∈ (storeEntryStep ext now sid st cnt e).1.mems ∧
      ∀ m ∈ st.mems, m.id ≠ d.id → m ∈ (storeEntryStep ext now sid st cnt e).1.mems) ∧
    (∀ (st0 : MemState) (e0 : StoreEntryM) (now1 now2 : ℚ),
      st0.mems = [] → e0.text ≠ [] → e0.embedding ≠ [] →
      ext.dist e0.embedding e0.embedding < st0.dedupThreshold → now1 < now2 →
      (store ext now1 sid st0 [e0]).2.stored = 1 ∧
      (store ext now1 sid st0 [e0]).2.totalMemories = 1 ∧
      (store ext now2 sid (store ext now1 sid st0 [e0]).1 [e0]).2.deduplicated = 1 ∧
      (store ext now2 sid (store ext now1 sid st0 [e0]).1 [e0]).2.stored = 0 ∧
      (store ext now2 sid (store ext now1 sid st0 [e0]).1 [e0]).2.totalMemories = 1 ∧
      ∃ m m',
        (store ext now1 sid st0 [e0]).1.mems = [m] ∧
        (store ext now2 sid (store ext now1 sid st0 [e0]).1 [e0]).1.mems = [m'] ∧
        m'.id = m.id ∧ m.lastRef = now1 ∧ m'.lastRef = now2 ∧
        m.lastRef < m'.lastRef ∧ m'.accessCount = m.accessCount + 1) := by
  constructor
  · obtain ⟨m0, hm0, hm0e, hm0d⟩ := hdup
    have hsome : (st.mems.find? fun m => m.embedding ≠ [] &&
        decide (ext.dist e.embedding m.embedding < st.dedupThreshold)).isSome := by
      rw [List.find?_isSome]
      exact ⟨m0, hm0, by simp [hm0e, hm0d]⟩
    obtain ⟨d, hd⟩ := Option.isSome_iff_exists.mp hsome
    have hdmem : d ∈ st.mems := List.mem_of_find?_eq_some hd
    have hdp : d.embedding ≠ [] ∧ ext.dist e.embedding d.embedding < st.dedupThreshold := by
      have := List.find?_some hd
      simpa using this
    have hfind : findDuplicate ext st e.embedding = some d.id := by
      unfold findDuplicate
      rw [hd]
      rfl
    have hstep : storeEntryStep ext now sid st cnt e
        = ({ st with
              mems := st.mems.map fun m => if m.id = d.id then touchedMem now m else m },
           { cnt with deduplicated := cnt.deduplicated + 1 }) := by
      simp only [storeEntryStep]
      rw [if_neg htext, if_pos hemb, hfind]
      rfl
    refine ⟨d, hdmem, hfind, hdp.1, hdp.2, ?_, ?_, ?_, ?_, ?_, ?_⟩
    · rw [hstep]
    · rw [hstep]
      exact List.length_map _ _
    · rw [hstep]
    · rw [hstep]
    · rw [hstep]
      exact List.mem_map.mpr ⟨d, hdmem, by rw [if_pos rfl]⟩
    · intro m hm hne
      rw [hstep]
      exact List.mem_map.mpr ⟨m, hm, by rw [if_neg hne]⟩
  · intro st0 e0 now1 now2 hempty htext0 hemb0 hdist0 hlt0
    exact store_twice_empty ext st0 e0 sid now1 now2 hempty htext0 hemb0 hdist0 hlt0

/-- Entry of the C6 witness: text and a one-component embedding (the
abstract distance of `extW` is the constant 1, below the threshold 2
used by the witness stores). -/
def c6e : StoreEntryM := { text := [104], embedding := [1], source := [], tags := [] }

/-- Pre-existing row of the C6 witness store, distinct from anything
the witness entry would insert. -/
def c6pre : MemEntry :=
  { id := 5, text := [120, 121], embedding := [3], source := [], sessionId := [],
    decay := 0, createdAt := 0, lastRef := 0, accessCount := 7 }

/-- Non-empty C6 witness store: one existing row within the threshold
of the witness entry. -/
def c6bst : MemState := { mems := [c6pre], tags := [], nextId := 6, dedupThreshold := 2 }

/-- Counters of the C6 witness call. -/
def c6cnt : StoreCounters := { stored := 0, deduplicated := 0 }

/-- Witness for the C6 theorem: the general clause at a store already
holding a different row, and the two-call scenario quantifier
instantiated by the theorem itself. -/
theorem store_dedup_spec_witness :
    (∃ d ∈ c6bst.mems,
      findDuplicate extW c6bst c6e.embedding = some d.id ∧
      d.embedding ≠ [] ∧ extW.dist c6e.embedding d.embedding < c6bst.dedupThreshold ∧
      (storeEntryStep extW 3 [] c6bst c6cnt c6e).2
        = { c6cnt with deduplicated := c6cnt.deduplicated + 1 } ∧
      (storeEntryStep extW 3 [] c6bst c6cnt c6e).1.mems.length = c6bst.mems.length ∧
      (storeEntryStep extW 3 [] c6bst c6cnt c6e).1.nextId = c6bst.nextId ∧
      (storeEntryStep extW 3 [] c6bst c6cnt c6e).1.tags = c6bst.tags ∧
      touchedMem 3 d ∈ (storeEntryStep extW 3 [] c6bst c6cnt c6e).1.mems ∧
      ∀ m ∈ c6bst.mems, m.id ≠ d.id → m ∈ (storeEntryStep extW 3 [] c6bst c6cnt c6e).1.mems) ∧
    (∀ (st0 : MemState) (e0 : StoreEntryM) (now1 now2 : ℚ),
      st0.mems = [] → e0.text ≠ [] → e0.embedding ≠ [] →
      extW.dist e0.embedding e0.embedding < st0.dedupThreshold → now1 < now2 →
      (store extW now1 [] st0 [e0]).2.stored = 1 ∧
      (store extW now1 [] st0 [e0]).2.totalMemories = 1 ∧
      (store extW now2 [] (store extW now1 [] st0 [e0]).1 [e0]).2.deduplicated = 1 ∧
      (store extW now2 [] (store extW now1 [] st0 [e0]).1 [e0]).2.stored = 0 ∧
      (store extW now2 [] (store extW now1 [] st0 [e0]).1 [e0]).2.totalMemories = 1 ∧
      ∃ m m',
        (store extW now1 [] st0 [e0]).1.mems = [m] ∧
        (store extW now2 [] (store extW now1 [] st0 [e0]).1 [e0]).1.mems = [m'] ∧
        m'.id = m.id ∧ m.lastRef = now1 ∧ m'.lastRef = now2 ∧
        m.lastRef < m'.lastRef ∧ m'.accessCount = m.accessCount + 1) :=
  store_dedup_spec extW 3 [] c6bst c6cnt c6e (by decide) (by decide)
    ⟨c6pre, by decide, by decide, by decide⟩

/-!
C7: the decay worker.  One `runOnce` pass evicts terminal rows first,
then promotes Summary→Keywords, then Full→Summary, so an old row
advances exactly one level per pass and a row promoted to a level in
this pass is not processed again by a later phase of the same pass.
-/

/-- Rows with pairwise increasing ids contain at most one row per id. -/
theorem memIdInj {l : List MemEntry} (hp : l.Pairwise (fun a b => a.id < b.id)) :
    ∀ x ∈ l, ∀ y ∈ l, x.id = y.id → x = y := by
  induction l with
  | nil => intro x hx; cases hx
  | cons a t ih =>
    intro x hx y hy hxy
    rcases List.mem_cons.mp hx with rfl | hx' <;> rcases List.mem_cons.mp hy with rfl | hy'
    · rfl
    · exact absurd hxy (Nat.ne_of_lt ((List.pairwise_cons.mp hp).1 y hy'))
    · exact absurd hxy.symm (Nat.ne_of_lt ((List.pairwise_cons.mp hp).1 x hx'))
    · exact ih (List.pairwise_cons.mp hp).2 x hx' y hy' hxy

/-- A row away from the source level passes `decayRows` unchanged. -/
theorem decayRows_mem_of_ne (cutoff : ℚ) (fromLevel toLevel : Nat) (tr : Bytes → Bytes)
    (st : MemState) (m : MemEntry) (hm : m ∈ st.mems) (hd : m.decay ≠ fromLevel) :
    m ∈ (decayRows cutoff fromLevel toLevel tr st).mems :=
  List.mem_map.mpr ⟨m, hm, by rw [if_neg (fun h => hd h.2)]⟩

/-- An old row at the source level is rewritten to the target level. -/
theorem decayRows_mem_promote (cutoff : ℚ) (fromLevel toLevel : Nat) (tr : Bytes → Bytes)
    (st : MemState) (m : MemEntry) (hm : m ∈ st.mems) (hd : m.decay = fromLevel)
    (hage : m.lastRef < cutoff) :
    ({ m with text := tr m.text, decay := toLevel })
      ∈ (decayRows cutoff fromLevel toLevel tr st).mems :=
  List.mem_map.mpr ⟨m, hm, by rw [if_pos ⟨hage, hd⟩]⟩

/-- Every `decayRows` output row keeps the id of an input row. -/
theorem decayRows_origin (cutoff : ℚ) (fromLevel toLevel : Nat) (tr : Bytes → Bytes)
    (st : MemState) (m' : MemEntry) (hm : m' ∈ (decayRows cutoff fromLevel toLevel tr st).mems) :
    ∃ n ∈ st.mems, m'.id = n.id := by
  obtain ⟨n, hn, he⟩ := List.mem_map.mp hm
  refine ⟨n, hn, ?_⟩
  rw [← he]
  split <;> rfl

/-- Non-terminal rows survive the eviction phase. -/
theorem evictPhase_keep (cfg : DecayCfg) (now : ℚ) (st : MemState) (m : MemEntry)
    (hm : m ∈ st.mems) (hd : m.decay < 2) : m ∈ (evictPhase cfg now st).mems := by
  simp only [evictPhase]
  split
  · refine List.mem_filter.mpr ⟨hm, ?_⟩
    simp only [decide_eq_true_eq]
    rintro ⟨-, h2⟩
    omega
  · exact hm

/-- Rows of the eviction phase output come from the input and, when the
phase is enabled, are not terminal-and-old. -/
theorem evictPhase_sub (cfg : DecayCfg) (now : ℚ) (st : MemState) (m : MemEntry)
    (hm : m ∈ (evictPhase cfg now st).mems) :
    m ∈ st.mems ∧ (0 < cfg.evictAge → ¬ (m.lastRef < now - cfg.evictAge ∧ 2 ≤ m.decay)) := by
  simp only [evictPhase] at hm
  split at hm
  · next hpos =>
    obtain ⟨hmem, hp⟩ := List.mem_filter.mp hm
    exact ⟨hmem, fun _ => by simpa only [decide_eq_true_eq] using hp⟩
  · next hneg => exact ⟨hm, fun h => absurd h hneg⟩

/-- Rows not at the Summary level pass the Summary→Keywords phase
unchanged. -/
theorem kwPhase_keep (cfg : DecayCfg) (now : ℚ) (st : MemState) (m : MemEntry)
    (hm : m ∈ st.mems) (hd : m.decay ≠ 1) : m ∈ (kwPhase cfg now st).mems := by
  simp only [kwPhase]
  split
  · exact decayRows_mem_of_ne _ _ _ _ _ m hm hd
  · exact hm

/-- The Summary→Keywords phase promotes an old Summary row. -/
theorem kwPhase_promote (cfg : DecayCfg) (now : ℚ) (st : MemState) (m : MemEntry)
    (hm : m ∈ st.mems) (hd : m.decay = 1) (hpos : 0 < cfg.keywordsAge)
    (hage : m.lastRef < now - cfg.keywordsAge) :
    ({ m with text := extractKeywordsCap 20 m.text, decay := 2 })
      ∈ (kwPhase cfg now st).mems := by
  simp only [kwPhase]
  rw [if_pos hpos]
  exact decayRows_mem_promote _ _ _ _ _ m hm hd hage

/-- Phase origin for Summary→Keywords: ids come from the input. -/
theorem kwPhase_origin (cfg : DecayCfg) (now : ℚ) (st : MemState) (m' : MemEntry)
    (hm : m' ∈ (kwPhase cfg now st).mems) : ∃ n ∈ st.mems, m'.id = n.id := by
  simp only [kwPhase] at hm
  split at hm
  · exact decayRows_origin _ _ _ _ _ m' hm
  · exact ⟨m', hm, rfl⟩

/-- Rows not at the Full level pass the Full→Summary phase unchanged. -/
theorem sumPhase_keep (ext : Ext) (cfg : DecayCfg) (now : ℚ) (st : MemState) (m : MemEntry)
    (hm : m ∈ st.mems) (hd : m.decay ≠ 0) : m ∈ (sumPhase ext cfg now st).mems := by
  simp only [sumPhase]
  split
  · exact decayRows_mem_of_ne _ _ _ _ _ m hm hd
  · exact hm

/-- The Full→Summary phase promotes an old Full row. -/
theorem sumPhase_promote (ext : Ext) (cfg : DecayCfg) (now : ℚ) (st : MemState) (m : MemEntry)
    (hm : m ∈ st.mems) (hd : m.decay = 0) (hpos : 0 < cfg.summaryAge)
    (hage : m.lastRef < now - cfg.summaryAge) :
    ({ m with text := extractSummary ext m.text, decay := 1 })
      ∈ (sumPhase ext cfg now st).mems := by
  simp only [sumPhase]
  rw [if_pos hpos]
  exact decayRows_mem_promote _ _ _ _ _ m hm hd hage

/-- Phase origin for Full→Summary: ids come from the input. -/
theorem sumPhase_origin (ext : Ext) (cfg : DecayCfg) (now : ℚ) (st : MemState) (m' : MemEntry)
    (hm : m' ∈ (sumPhase ext cfg now st).mems) : ∃ n ∈ st.mems, m'.id = n.id := by
  simp only [sumPhase] at hm
  split at hm
  · exact decayRows_origin _ _ _ _ _ m' hm
  · exact ⟨m', hm, rfl⟩

/-- C7: one `runOnce` pass of the decay worker, under the primary-key
invariant.  A terminal row older than `EvictAge` is gone from the
result (evicted before any promotion); an old Full row advances to
exactly the Summary level with the summary transform applied — not two
levels, because Summary→Keywords runs before Full→Summary; an old
Summary row advances to the Keywords level with the keyword transform
applied and survives the pass, because eviction ran before the
promotions. -/
theorem runOnce_decay_progression (ext : Ext) (cfg : DecayCfg) (now : ℚ) (st : MemState)
    (hinv : MemInv st) :
    (∀ m ∈ st.mems, 0 < cfg.evictAge → 2 ≤ m.decay → m.lastRef < now - cfg.evictAge →
      ∀ m' ∈ (runOnce ext cfg now st).mems, m'.id ≠ m.id) ∧
    (∀ m ∈ st.mems, m.decay = 0 → 0 < cfg.summaryAge → m.lastRef < now - cfg.summaryAge →
      ∃ m' ∈ (runOnce ext cfg now st).mems, m'.id = m.id ∧ m'.decay = 1 ∧
        m'.text = extractSummary ext m.text) ∧
    (∀ m ∈ st.mems, m.decay = 1 → 0 < cfg.keywordsAge → m.lastRef < now - cfg.keywordsAge →
      ∃ m' ∈ (runOnce ext cfg now st).mems, m'.id = m.id ∧ m'.decay = 2 ∧
        m'.text = extractKeywordsCap 20 m.text) := by
  refine ⟨?_, ?_, ?_⟩
  · intro m hm hpos hterm hold m' hm' heq
    obtain ⟨n1, hn1, hid1⟩ := sumPhase_origin ext cfg now _ m' hm'
    obtain ⟨n2, hn2, hid2⟩ := kwPhase_origin cfg now _ n1 hn1
    obtain ⟨hn2mem, hcond⟩ := evictPhase_sub cfg now st n2 hn2
    have hnid : n2.id = m.id := by rw [← hid2, ← hid1]; exact heq
    have hnm : n2 = m := memIdInj hinv.2 n2 hn2mem m hm hnid
    rw [hnm] at hcond
    exact (hcond hpos) ⟨hold, hterm⟩
  · intro m hm hd hpos hage
    have h1 : m ∈ (evictPhase cfg now st).mems := evictPhase_keep cfg now st m hm (by omega)
    have h2 : m ∈ (kwPhase cfg now (evictPhase cfg now st)).mems :=
      kwPhase_keep cfg now _ m h1 (by omega)
    have h3 := sumPhase_promote ext cfg now _ m h2 hd hpos hage
    exact ⟨_, h3, rfl, rfl, rfl⟩
  · intro m hm hd hpos hage
    have h1 : m ∈ (evictPhase cfg now st).mems := evictPhase_keep cfg now st m hm (by omega)
    have h2 := kwPhase_promote cfg now _ m h1 hd hpos hage
    have h3 := sumPhase_keep ext cfg now _ _ h2 (by simp)
    exact ⟨_, h3, rfl, rfl, rfl⟩

/-- Decidability of the memory invariant, for concrete witnesses. -/
instance memInvDecidable (st : MemState) : Decidable (MemInv st) := by
  unfold MemInv
  infer_instance

/-- Row of the C7 witness store. -/
def c7row (i d : Nat) : MemEntry :=
  { id := i, text := [97, 98, 99, 100, 101], embedding := [], source := [], sessionId := [],
    decay := d, createdAt := 0, lastRef := 0, accessCount := 0 }

/-- Witness store: one row per decay level, all last referenced at
time 0. -/
def c7st : MemState :=
  { mems := [c7row 0 0, c7row 1 1, c7row 2 2], tags := [], nextId := 3, dedupThreshold := 0 }

/-- Witness configuration: every phase enabled with a one-hour age. -/
def c7cfg : DecayCfg := { evictAge := 1, keywordsAge := 1, summaryAge := 1 }

/-- Witness for the C7 theorem at the concrete input (`now` = 10). -/
theorem runOnce_decay_progression_witness :
    (∀ m ∈ c7st.mems, 0 < c7cfg.evictAge → 2 ≤ m.decay → m.lastRef < 10 - c7cfg.evictAge →
      ∀ m' ∈ (runOnce extW c7cfg 10 c7st).mems, m'.id ≠ m.id) ∧
    (∀ m ∈ c7st.mems, m.decay = 0 → 0 < c7cfg.summaryAge → m.lastRef < 10 - c7cfg.summaryAge →
      ∃ m' ∈ (runOnce extW c7cfg 10 c7st).mems, m'.id = m.id ∧ m'.decay = 1 ∧
        m'.text = extractSummary extW m.text) ∧
    (∀ m ∈ c7st.mems, m.decay = 1 → 0 < c7cfg.keywordsAge → m.lastRef < 10 - c7cfg.keywordsAge →
      ∃ m' ∈ (runOnce extW c7cfg 10 c7st).mems, m'.id = m.id ∧ m'.decay = 2 ∧
        m'.text = extractKeywordsCap 20 m.text) :=
  runOnce_decay_progression extW c7cfg 10 c7st (by decide)

end Distill
